import Mathlib

/-!
Shallow embedding of the lexicon-based sentiment pipeline
(`src/preprocessing.py`, `src/feature_extraction.py`, `src/sentiment_analysis.py`).

Strings are modelled as `List Char`; Python floats as exact rationals `ℚ`.
Python `dict`s built by repeated assignment are modelled as association lists
with new entries consed to the front, so `List.lookup` (first hit) realises the
"last assignment wins" semantics of the source.
-/

namespace SentimentModel

/-- Characters matched by Python's regex class `\s` (and stripped by
`str.strip`): the ASCII whitespace characters (code points 9-13 and 32, plus
the information separators 28-31 that Python treats as whitespace) together
with the Unicode whitespace code points (NEL 133, NBSP 160, OGHAM 5760, the
8192-8202 space block, LS 8232, PS 8233, NNBSP 8239, MMSP 8287, and the
ideographic space 12288). -/
def isPySpace (c : Char) : Bool :=
  c.toNat = 32 || c.toNat = 9 || c.toNat = 10 || c.toNat = 11 ||
  c.toNat = 12 || c.toNat = 13 || c.toNat = 28 || c.toNat = 29 ||
  c.toNat = 30 || c.toNat = 31 || c.toNat = 133 || c.toNat = 160 ||
  c.toNat = 5760 || (8192 ≤ c.toNat && c.toNat ≤ 8202) ||
  c.toNat = 8232 || c.toNat = 8233 || c.toNat = 8239 || c.toNat = 8287 ||
  c.toNat = 12288

/-- ASCII uppercase letter (the `A-Z` range of the regex `[^a-zA-Z\s]`). -/
def isAsciiUpper (c : Char) : Bool := 'A' ≤ c && c ≤ 'Z'

/-- ASCII lowercase letter (the `a-z` range of the regex `[^a-zA-Z\s]`). -/
def isAsciiLower (c : Char) : Bool := 'a' ≤ c && c ≤ 'z'

/-- ASCII letter, i.e. a character kept by `re.sub(r'[^a-zA-Z\s]', '', text)`. -/
def isAsciiAlpha (c : Char) : Bool := isAsciiUpper c || isAsciiLower c

/-- Python `str.lower()` at the character level: maps `A-Z` to `a-z` and leaves
other characters unchanged.  (Python also lowercases non-ASCII letters; those
characters are deleted later by the `[^a-zA-Z\s]` filter, so the ASCII action is
the only part observable in `clean_text`.) -/
def pyLowerChar (c : Char) : Char :=
  if isAsciiUpper c then Char.ofNat (c.toNat + 32) else c

/-- Python `text.lower()` from `preprocessing.py` line 52. -/
def pyLower (l : List Char) : List Char := l.map pyLowerChar

/-- Maximal run of non-whitespace characters at the head of `l` (what a greedy
`\S+` anchored at the current position matches through). -/
def takeRun (l : List Char) : List Char := l.takeWhile (fun c => !isPySpace c)

/-- Drops the maximal run of non-whitespace characters at the head of `l`. -/
def dropRun (l : List Char) : List Char := l.dropWhile (fun c => !isPySpace c)

/-- Tests whether the head of `l` exists and is not whitespace. -/
def headNonspace (l : List Char) : Bool :=
  match l with
  | [] => false
  | c :: _ => !isPySpace c

/-- Character list of the pattern literal `http`. -/
def httpChars : List Char := ['h', 't', 't', 'p']

/-- Character list of the pattern literal `www`. -/
def wwwChars : List Char := ['w', 'w', 'w']

/-- Tests whether `re.sub(r'http\S+|www\S+|https\S+', '', text)` has a match
anchored at the head of `l`: the literal `http` (resp. `www`) followed by at
least one non-whitespace character.  The `https\S+` alternative is redundant in
the source pattern: any position where it matches is already matched by
`http\S+` (with the same, greedy, match end), so it needs no separate case. -/
def urlStartsAt (l : List Char) : Bool :=
  (httpChars.isPrefixOf l && headNonspace (l.drop 4)) ||
  (wwwChars.isPrefixOf l && headNonspace (l.drop 3))

/-- Helper bound for the termination of the scanning recursions. -/
theorem length_dropWhile_le (p : Char → Bool) (l : List Char) :
    (l.dropWhile p).length ≤ l.length := by
  induction l with
  | nil => simp [List.dropWhile]
  | cons a l ih =>
    by_cases h : p a
    · simp only [List.dropWhile, h]
      exact Nat.le_succ_of_le ih
    · simp [List.dropWhile, h]

/-- Fuelled worker for `subURL`; the fuel dominates the remaining length, so
each step is structural and the zero-fuel arm is never reached on the fuel
`subURL` supplies. -/
def subURLF : Nat → List Char → List Char
  | _, [] => []
  | 0, l => l
  | fuel + 1, c :: cs =>
    if urlStartsAt (c :: cs) then subURLF fuel (dropRun cs)
    else c :: subURLF fuel cs

/-- Python `re.sub(r'http\S+|www\S+|https\S+', '', text)` (`preprocessing.py`
line 55).  The scan moves left to right; at a position where the pattern
matches, the greedy `\S+` extends the match to the end of the current
non-whitespace run, the match is deleted, and scanning resumes after it. -/
def subURL (l : List Char) : List Char := subURLF l.length l

/-- Tests whether `re.sub(r'\S+@\S+', '', text)` has a match anchored at the
head of `l`.  With greedy `\S+` on both sides and backtracking, the pattern
matches at the start of a non-whitespace run exactly when the run contains an
`@` at an interior position (neither first nor last character of the run), and
the match then covers the whole run. -/
def emailStartsAt (l : List Char) : Bool :=
  (((takeRun l).drop 1).dropLast).contains '@'

/-- Fuelled worker for `subEmail`, structured like `subURLF`. -/
def subEmailF : Nat → List Char → List Char
  | _, [] => []
  | 0, l => l
  | fuel + 1, c :: cs =>
    if emailStartsAt (c :: cs) then subEmailF fuel (dropRun cs)
    else c :: subEmailF fuel cs

/-- Python `re.sub(r'\S+@\S+', '', text)` (`preprocessing.py` line 58). -/
def subEmail (l : List Char) : List Char := subEmailF l.length l

/-- Python `re.sub(r'[^a-zA-Z\s]', '', text)` (`preprocessing.py` line 61):
keeps exactly the ASCII letters and the whitespace characters. -/
def keepAlphaSpace (l : List Char) : List Char :=
  l.filter (fun c => isAsciiAlpha c || isPySpace c)

/-- Worker for `collapseWs`; the flag records whether the previously emitted
character came from a whitespace run (so further whitespace is absorbed). -/
def collapseAux : Bool → List Char → List Char
  | _, [] => []
  | prevSpace, c :: cs =>
    if isPySpace c then
      if prevSpace then collapseAux true cs
      else ' ' :: collapseAux true cs
    else c :: collapseAux false cs

/-- Python `re.sub(r'\s+', ' ', text)` (`preprocessing.py` line 64): each
maximal whitespace run becomes a single space. -/
def collapseWs (l : List Char) : List Char := collapseAux false l

/-- Removes trailing whitespace characters. -/
def stripTrailing : List Char → List Char
  | [] => []
  | c :: cs =>
    match stripTrailing cs with
    | [] => if isPySpace c then [] else [c]
    | r => c :: r

/-- Python `str.strip()` (`preprocessing.py` line 64): removes leading and
trailing whitespace. -/
def pyStrip (l : List Char) : List Char :=
  stripTrailing (l.dropWhile isPySpace)

/-- `TextPreprocessor.clean_text` (`preprocessing.py` lines 44-66): lowercase,
delete URL-like and email-like tokens, delete every character that is not an
ASCII letter or whitespace, collapse whitespace runs to single spaces, strip. -/
def clean_text (l : List Char) : List Char :=
  pyStrip (collapseWs (keepAlphaSpace (subEmail (subURL (pyLower l)))))

/-- Fuelled worker for `tokenize`, structured like `subURLF`. -/
def tokenizeF : Nat → List Char → List (List Char)
  | _, [] => []
  | 0, _ => []
  | fuel + 1, c :: cs =>
    if isPySpace c then tokenizeF fuel cs
    else (c :: takeRun cs) :: tokenizeF fuel (dropRun cs)

/-- `TextPreprocessor.tokenize` (`preprocessing.py` lines 68-74).  The source
calls NLTK's `word_tokenize`, a third-party function; on `clean_text` output —
which contains only letters and single spaces — it coincides with whitespace
splitting (spec 4.2: splits on whitespace, empty sequence for empty input):
each maximal non-whitespace run becomes one token. -/
def tokenize (l : List Char) : List (List Char) := tokenizeF l.length l

/-- `TextPreprocessor.remove_stopwords` (`preprocessing.py` lines 76-82).  The
stopword set (NLTK's English list minus the negation words, built in
`__init__`) is third-party data and is taken as a parameter. -/
def remove_stopwords (stop : List (List Char)) (tokens : List (List Char)) :
    List (List Char) :=
  tokens.filter (fun w => !(stop.contains w))

/-- `TextPreprocessor.preprocess` (`preprocessing.py` lines 100-129) on the
default path (`use_stemming=False`, `use_lemmatization=True`): clean, tokenize,
remove stopwords, lemmatize.  The WordNet lemmatizer is third-party and is
taken as the parameter `red` (spec 4.4: a deterministic total token map).
Returns `(cleaned_text, tokens, processed_tokens)`. -/
def preprocess (stop : List (List Char)) (red : List Char → List Char)
    (text : List Char) : List Char × List (List Char) × List (List Char) :=
  let cleaned := clean_text text
  let tokens := tokenize cleaned
  let filtered := remove_stopwords stop tokens
  (cleaned, tokens, filtered.map red)

/-- The two word→score maps of `FeatureExtractor` (`feature_extraction.py`
lines 31-32), as association lists: `positive_words` and `negative_words`. -/
structure Lexicon where
  positive_words : List (List Char × ℚ)
  negative_words : List (List Char × ℚ)
deriving DecidableEq

/-- Numeric value of a list of decimal digits. -/
def digitsVal (l : List Char) : Nat :=
  l.foldl (fun a c => a * 10 + (c.toNat - 48)) 0

/-- Value domain of Python `float(...)` as far as `load_lexicon` observes it:
a finite value (idealised as the exact rational denoted by the literal), the
two infinities, or nan. -/
inductive PyFloat where
  | finite (q : ℚ)
  | inf
  | negInf
  | nan
deriving DecidableEq

/-- Python `score > 0` on a float: true for a positive finite value and for
+inf, false for -inf and for nan (every comparison against nan is false). -/
def pyFloatPos : PyFloat → Bool
  | .finite q => decide (0 < q)
  | .inf => true
  | .negInf => false
  | .nan => false

/-- Python `score < 0` on a float: true for a negative finite value and for
-inf, false for +inf and for nan. -/
def pyFloatNeg : PyFloat → Bool
  | .finite q => decide (q < 0)
  | .inf => false
  | .negInf => true
  | .nan => false

/-- Stand-in magnitude for an infinite stored score: the maps store
rationals, and no rational is infinite.  `infScore` exceeds every finite
IEEE double (whose maximum is below 1.8e308), and every theorem in this
file reads stored scores only through their sign. -/
def infScore : ℚ := 10 ^ 400

/-- The dict value stored for a parsed score
(`self.positive_words[word] = score`): the value itself when finite,
`±infScore` for the two infinities.  `nan` is never stored, since both of
the loader\x27s sign tests are false on it. -/
def pyFloatStored : PyFloat → ℚ
  | .finite q => q
  | .inf => infScore
  | .negInf => -infScore
  | .nan => 0

/-- Consumes the maximal digit part at the head of the input: ASCII digits
with single underscores strictly between digits (PEP 515).  Returns the
digits kept (underscores dropped) and the unconsumed rest.  Callers start
it on a digit via `takeDigitPart`, so the underscore branch is only ever
reached between digits. -/
def digitPartAux : List Char → List Char × List Char
  | [] => ([], [])
  | c :: cs =>
    if c.isDigit then
      let r := digitPartAux cs
      (c :: r.1, r.2)
    else
      match c, cs with
      | '_', d :: ds =>
        if d.isDigit then
          let r := digitPartAux ds
          (d :: r.1, r.2)
        else ([], c :: cs)
      | _, _ => ([], c :: cs)

/-- A digit part must begin with a digit (so an underscore can only stand
between digits). -/
def takeDigitPart : List Char → Option (List Char × List Char)
  | [] => none
  | c :: cs => if c.isDigit then some (digitPartAux (c :: cs)) else none

/-- Parses the optional exponent suffix of a float literal: an empty rest
means no exponent (`some (1, [])`); otherwise `e`/`E`, an optional sign and
a digit part that must consume everything that remains.  Returns the
exponent sign and its digits, `none` on a malformed suffix. -/
def parseExp? : List Char → Option (ℤ × List Char)
  | [] => some (1, [])
  | c :: cs =>
    if c = 'e' || c = 'E' then
      match cs with
      | '+' :: r =>
        match takeDigitPart r with
        | some (ds, []) => some (1, ds)
        | _ => none
      | '-' :: r =>
        match takeDigitPart r with
        | some (ds, []) => some (-1, ds)
        | _ => none
      | r =>
        match takeDigitPart r with
        | some (ds, []) => some (1, ds)
        | _ => none
    else none

/-- Exact rational value of the decimal literal `ip[.fp][e/E es ep]` with
sign `neg` (underscores already dropped from the digit lists). -/
def floatVal (neg : Bool) (ip fp : List Char) (es : ℤ) (ep : List Char) : ℚ :=
  (if neg then (-1 : ℚ) else 1) *
    (((digitsVal ip : ℚ) + (digitsVal fp : ℚ) / (10 : ℚ) ^ fp.length) *
      (10 : ℚ) ^ (es * (digitsVal ep : ℤ)))

/-- Python `float(...)` after the optional sign: the named specials `inf`,
`infinity` and `nan` (ASCII case-insensitive), or a decimal literal --
digit parts with underscores, at least one digit overall, an optional `.`
with an optional fractional digit part, and an optional `e`/`E` exponent
with its own optional sign.  Anything else raises `ValueError` in the
source, modelled as `none`. -/
def parseUnsigned? (neg : Bool) (t : List Char) : Option PyFloat :=
  if pyLower t = "inf".toList || pyLower t = "infinity".toList then
    some (if neg then PyFloat.negInf else PyFloat.inf)
  else if pyLower t = "nan".toList then some PyFloat.nan
  else
    match takeDigitPart t with
    | some (ip, rest) =>
      match rest with
      | '.' :: r2 =>
        match takeDigitPart r2 with
        | some (fp, rest2) =>
          match parseExp? rest2 with
          | some (es, ep) => some (PyFloat.finite (floatVal neg ip fp es ep))
          | none => none
        | none =>
          match parseExp? r2 with
          | some (es, ep) => some (PyFloat.finite (floatVal neg ip [] es ep))
          | none => none
      | _ =>
        match parseExp? rest with
        | some (es, ep) => some (PyFloat.finite (floatVal neg ip [] es ep))
        | none => none
    | none =>
      match t with
      | '.' :: r2 =>
        match takeDigitPart r2 with
        | some (fp, rest2) =>
          match parseExp? rest2 with
          | some (es, ep) => some (PyFloat.finite (floatVal neg [] fp es ep))
          | none => none
        | none => none
      | _ => none

/-- Python `float(s)` (`feature_extraction.py` line 54): strip surrounding
whitespace, take an optional sign, then parse the body with
`parseUnsigned?`.  Finite values are idealised as the exact rational of the
literal; the source rounds them to the nearest IEEE double, which never
flips the sign of a literal -- the only aspect of the value the loader
branches on -- though it can collapse a tiny literal such as `1e-500` to
zero.  Digits here are the ASCII `0`-`9`; CPython additionally transforms
other Unicode decimal digits before parsing.  Both residual gaps are
guarded conservatively by `linesNoClash` below. -/
def parseFloat? (s : List Char) : Option PyFloat :=
  match pyStrip s with
  | '-' :: r => parseUnsigned? true r
  | '+' :: r => parseUnsigned? false r
  | t => parseUnsigned? false t

/-- Python `line.split(',')`: the comma-separated pieces of `l` (one more piece
than there are commas). -/
def splitComma : List Char → List (List Char)
  | [] => [[]]
  | c :: cs =>
    if c = ',' then [] :: splitComma cs
    else
      match splitComma cs with
      | [] => [[c]]
      | p :: ps => (c :: p) :: ps

/-- Loop body of `FeatureExtractor.load_lexicon` (`feature_extraction.py` lines
45-61) for one raw line: strip; skip blank lines and `#` comments; split on
commas, which must give exactly two pieces (`word, score = line.split(',')`
raises `ValueError` otherwise, caught and skipped); parse the score
(`ValueError` again skipped). -/
def parseLexLine (raw : List Char) : Option (List Char × PyFloat) :=
  let line := pyStrip raw
  if line.isEmpty then none
  else if line.head? = some '#' then none
  else
    match splitComma line with
    | [w, sc] =>
      match parseFloat? sc with
      | some v => some (w, v)
      | none => none
    | _ => none

/-- Folds the parsed lines into the two maps (`feature_extraction.py` lines
56-59): `score > 0` inserts into `positive_words`, `score < 0` into
`negative_words` (kept signed), anything else -- zero or nan -- is skipped.
The guards are the float sign tests `pyFloatPos` / `pyFloatNeg`. -/
def loadLines : List (List Char) → Lexicon → Lexicon
  | [], lex => lex
  | raw :: rest, lex =>
    match parseLexLine raw with
    | none => loadLines rest lex
    | some (w, v) =>
      if pyFloatPos v then
        loadLines rest ⟨(w, pyFloatStored v) :: lex.positive_words, lex.negative_words⟩
      else if pyFloatNeg v then
        loadLines rest ⟨lex.positive_words, (w, pyFloatStored v) :: lex.negative_words⟩
      else loadLines rest lex

/-- `FeatureExtractor.load_lexicon` (`feature_extraction.py` lines 35-64).
`none` models an absent lexicon file (`os.path.exists` false): the method
prints a warning and returns, leaving both maps empty as initialised in
`__init__`; `some lines` models the file's lines. -/
def load_lexicon : Option (List (List Char)) → Lexicon
  | none => ⟨[], []⟩
  | some lines => loadLines lines ⟨[], []⟩

/-- Accumulator of the scoring loop in `calculate_sentiment_score`
(`feature_extraction.py` lines 93-105). -/
structure ScoreAcc where
  positive_score : ℚ
  negative_score : ℚ
  positive_count : Nat
  negative_count : Nat
deriving DecidableEq

/-- One iteration of the scoring loop (`feature_extraction.py` lines 99-105):
a token in the positive map adds its score to `positive_score` (the positive
branch is checked first); otherwise a token in the negative map adds the
absolute value of its score to `negative_score`. -/
def scoreStep (lex : Lexicon) (acc : ScoreAcc) (t : List Char) : ScoreAcc :=
  match lex.positive_words.lookup t with
  | some s => ⟨acc.positive_score + s, acc.negative_score,
               acc.positive_count + 1, acc.negative_count⟩
  | none =>
    match lex.negative_words.lookup t with
    | some s => ⟨acc.positive_score, acc.negative_score + |s|,
                 acc.positive_count, acc.negative_count + 1⟩
    | none => acc

/-- The whole scoring loop over the token list. -/
def scoreTokens (lex : Lexicon) (tokens : List (List Char)) : ScoreAcc :=
  tokens.foldl (scoreStep lex) ⟨0, 0, 0, 0⟩

/-- Negation-marker set of `FeatureExtractor.detect_negation`
(`feature_extraction.py` lines 130-132). -/
def negationWords : List (List Char) :=
  ["not".toList, "no".toList, "never".toList, "neither".toList, "nor".toList,
   "none".toList, "nobody".toList, "nothing".toList, "nowhere".toList,
   "don\x27t".toList, "doesn\x27t".toList, "didn\x27t".toList,
   "won\x27t".toList, "wouldn\x27t".toList, "shouldn\x27t".toList,
   "couldn\x27t".toList]

/-- `FeatureExtractor.detect_negation` (`feature_extraction.py` lines
126-135): the number of tokens that are negation markers. -/
def detect_negation (tokens : List (List Char)) : Nat :=
  tokens.countP (fun t => negationWords.contains t)

/-- Python `' '.join(ws)`. -/
def joinSpace : List (List Char) → List Char
  | [] => []
  | [w] => w
  | w :: ws => w ++ ' ' :: joinSpace ws

/-- `FeatureExtractor.extract_ngrams` (`feature_extraction.py` lines 66-81):
all contiguous `n`-token windows, each joined by single spaces.  Python's
`range(len(tokens) - n + 1)` is empty when `len(tokens) < n`, which
`tokens.length + 1 - n` reproduces with truncated subtraction. -/
def extract_ngrams (tokens : List (List Char)) (n : Nat) : List (List Char) :=
  (List.range (tokens.length + 1 - n)).map
    (fun i => joinSpace ((tokens.drop i).take n))

/-- Feature dictionary produced by `FeatureExtractor.extract_features`
(`feature_extraction.py` lines 137-167), one named field per key. -/
structure FeatureSet where
  positive_score : ℚ
  negative_score : ℚ
  total_score : ℚ
  normalized_score : ℚ
  positive_count : Nat
  negative_count : Nat
  negation_count : Nat
  token_count : Nat
  bigrams : List (List Char)
  bigram_count : Nat
  word_count : Nat
  avg_word_length : ℚ
deriving DecidableEq

/-- `FeatureExtractor.extract_features` with its default `include_ngrams=True`
(`feature_extraction.py` lines 137-167), inlining `calculate_sentiment_score`
(lines 83-124): `total_score = positive_score - negative_score`;
`normalized_score = total_score / len(tokens)` when the token list is
non-empty and `0` otherwise. -/
def extract_features (lex : Lexicon) (tokens : List (List Char)) : FeatureSet :=
  let acc := scoreTokens lex tokens
  let total := acc.positive_score - acc.negative_score
  let ns : ℚ := if 0 < tokens.length then total / (tokens.length : ℚ) else 0
  let bigrams := extract_ngrams tokens 2
  { positive_score := acc.positive_score
    negative_score := acc.negative_score
    total_score := total
    normalized_score := ns
    positive_count := acc.positive_count
    negative_count := acc.negative_count
    negation_count := detect_negation tokens
    token_count := tokens.length
    bigrams := bigrams
    bigram_count := bigrams.length
    word_count := tokens.length
    avg_word_length :=
      if tokens.isEmpty then 0
      else ((tokens.map List.length).sum : ℚ) / (tokens.length : ℚ) }

/-- `self.positive_threshold` (`sentiment_analysis.py` line 24). -/
def positive_threshold : ℚ := 1 / 20

/-- `self.negative_threshold` (`sentiment_analysis.py` line 25). -/
def negative_threshold : ℚ := -(1 / 20)

/-- Threshold classification of `analyze_sentiment` (`sentiment_analysis.py`
lines 46-54): label and raw confidence before the word-count adjustment. -/
def classifyRaw (features : FeatureSet) : String × ℚ :=
  let ns := features.normalized_score
  if positive_threshold < ns then ("Positive", min (ns * 100) 100)
  else if ns < negative_threshold then ("Negative", min (|ns| * 100) 100)
  else ("Neutral", 50)

/-- Confidence adjustment of `analyze_sentiment` (`sentiment_analysis.py`
lines 56-58): `+20` capped at `100` when any positive or negative word was
matched. -/
def boostConfidence (features : FeatureSet) (conf : ℚ) : ℚ :=
  if 0 < features.positive_count || 0 < features.negative_count then
    min (conf + 20) 100
  else conf

/-- Python `round(q, n)` on exact rationals: round `q * 10^n` to the nearest
integer, ties to even, then divide back.  (Python rounds the binary float
nearest to the value; the model rounds the exact rational itself.) -/
def pyRound (q : ℚ) (n : Nat) : ℚ :=
  let m : ℚ := q * (10 : ℚ) ^ n
  let f : ℤ := ⌊m⌋
  let r : ℤ :=
    if m - (f : ℚ) < 1 / 2 then f
    else if (1 : ℚ) / 2 < m - (f : ℚ) then f + 1
    else if f % 2 = 0 then f else f + 1
  (r : ℚ) / (10 : ℚ) ^ n

/-- The classification step of `SentimentAnalyzer.analyze_sentiment`
(`sentiment_analysis.py` lines 44-58 and the rounding on line 65) as a
function of the feature set: sentiment label and final (rounded) confidence. -/
def classify (features : FeatureSet) : String × ℚ :=
  let lc := classifyRaw features
  (lc.1, pyRound (boostConfidence features lc.2) 2)

/-- Result dictionary of `SentimentAnalyzer.analyze_sentiment`
(`sentiment_analysis.py` lines 60-70), one named field per key. -/
structure SentimentResult where
  original_text : List Char
  cleaned_text : List Char
  processed_tokens : List (List Char)
  sentiment : String
  confidence : ℚ
  sentiment_score : ℚ
  positive_words : Nat
  negative_words : Nat
  total_words : Nat
deriving DecidableEq

/-- `SentimentAnalyzer.analyze_sentiment` (`sentiment_analysis.py` lines
27-70): preprocess, extract features, classify, round.  `stop` and `red` are
the third-party stopword set and lemmatizer of the preprocessor (see
`preprocess`). -/
def analyze_sentiment (lex : Lexicon) (stop : List (List Char))
    (red : List Char → List Char) (text : List Char) : SentimentResult :=
  let p := preprocess stop red text
  let features := extract_features lex p.2.2
  let lc := classify features
  { original_text := text
    cleaned_text := p.1
    processed_tokens := p.2.2
    sentiment := lc.1
    confidence := lc.2
    sentiment_score := pyRound features.normalized_score 4
    positive_words := features.positive_count
    negative_words := features.negative_count
    total_words := features.token_count }

/-! Helper lemmas about rounding. -/

/-- The integer that `pyRound` rounds `m` to. -/
def roundInt (m : ℚ) : ℤ :=
  if m - (⌊m⌋ : ℚ) < 1 / 2 then ⌊m⌋
  else if (1 : ℚ) / 2 < m - (⌊m⌋ : ℚ) then ⌊m⌋ + 1
  else if ⌊m⌋ % 2 = 0 then ⌊m⌋ else ⌊m⌋ + 1

/-- Unfolding equation for `pyRound` in terms of `roundInt`. -/
theorem pyRound_eq (q : ℚ) (n : Nat) :
    pyRound q n = ((roundInt (q * (10 : ℚ) ^ n) : ℤ) : ℚ) / (10 : ℚ) ^ n := rfl

/-- The rounded integer is at least the floor. -/
theorem roundInt_ge_floor (m : ℚ) : ⌊m⌋ ≤ roundInt m := by
  unfold roundInt
  split
  · omega
  · split
    · omega
    · split <;> omega

/-- The rounded integer is at most the floor plus one. -/
theorem roundInt_le_floor_succ (m : ℚ) : roundInt m ≤ ⌊m⌋ + 1 := by
  unfold roundInt
  split
  · omega
  · split
    · omega
    · split <;> omega

/-- Rounding to `n` decimal places cannot drop below an integer lower bound. -/
theorem pyRound_ge_int (q : ℚ) (n : Nat) (B : ℤ) (h : (B : ℚ) ≤ q) :
    (B : ℚ) ≤ pyRound q n := by
  rw [pyRound_eq]
  have hN : (0 : ℚ) < (10 : ℚ) ^ n := by positivity
  rw [le_div_iff₀ hN]
  have hm : ((B * 10 ^ n : ℤ) : ℚ) ≤ q * (10 : ℚ) ^ n := by
    push_cast
    exact mul_le_mul_of_nonneg_right h (le_of_lt hN)
  have hfl : (B * 10 ^ n : ℤ) ≤ ⌊q * (10 : ℚ) ^ n⌋ := Int.le_floor.mpr hm
  have hr : (B * 10 ^ n : ℤ) ≤ roundInt (q * (10 : ℚ) ^ n) :=
    le_trans hfl (roundInt_ge_floor _)
  calc (B : ℚ) * (10 : ℚ) ^ n = ((B * 10 ^ n : ℤ) : ℚ) := by push_cast; ring
    _ ≤ _ := by exact_mod_cast hr

/-- Rounding to `n` decimal places cannot exceed an integer upper bound. -/
theorem pyRound_le_int (q : ℚ) (n : Nat) (B : ℤ) (h : q ≤ (B : ℚ)) :
    pyRound q n ≤ (B : ℚ) := by
  rw [pyRound_eq]
  have hN : (0 : ℚ) < (10 : ℚ) ^ n := by positivity
  rw [div_le_iff₀ hN]
  have hm : q * (10 : ℚ) ^ n ≤ ((B * 10 ^ n : ℤ) : ℚ) := by
    push_cast
    exact mul_le_mul_of_nonneg_right h (le_of_lt hN)
  have hfl : ⌊q * (10 : ℚ) ^ n⌋ ≤ B * 10 ^ n := by
    have := Int.floor_le_floor hm
    rwa [Int.floor_intCast] at this
  have hr : roundInt (q * (10 : ℚ) ^ n) ≤ B * 10 ^ n := by
    rcases lt_or_eq_of_le hfl with hlt | heq
    · exact le_trans (roundInt_le_floor_succ _) (by omega)
    · have hfrac : q * (10:ℚ)^n - (⌊q * (10:ℚ)^n⌋ : ℚ) < 1/2 := by
        have hle : q * (10:ℚ)^n ≤ (⌊q * (10:ℚ)^n⌋ : ℚ) := by
          rw [heq]; exact_mod_cast hm
        linarith
      unfold roundInt
      rw [if_pos hfrac]
      omega
  calc ((roundInt (q * (10 : ℚ) ^ n) : ℤ) : ℚ) ≤ ((B * 10 ^ n : ℤ) : ℚ) := by
        exact_mod_cast hr
    _ = (B : ℚ) * (10 : ℚ) ^ n := by push_cast; ring

/-! Helper lemmas about the lexicon loader. -/

/-- A successful association-list lookup comes from a member pair. -/
theorem lookup_some_mem (l : List (List Char × ℚ)) (k : List Char) (v : ℚ)
    (h : l.lookup k = some v) : (k, v) ∈ l := by
  induction l with
  | nil => simp [List.lookup] at h
  | cons p rest ih =>
    obtain ⟨a, b⟩ := p
    simp only [List.lookup] at h
    split at h
    · rename_i hbe
      have hk : k = a := eq_of_beq hbe
      have hv : b = v := by
        injection h
      simp [hk, hv]
    · exact List.mem_cons_of_mem _ (ih h)

/-- A score passing the positive sign test is stored as a strictly positive
rational. -/
theorem pyFloatStored_pos (v : PyFloat) (h : pyFloatPos v = true) :
    0 < pyFloatStored v := by
  cases v with
  | finite q =>
    have hq : decide ((0 : ℚ) < q) = true := h
    exact of_decide_eq_true hq
  | inf =>
    show (0 : ℚ) < infScore
    unfold infScore
    positivity
  | negInf => simp [pyFloatPos] at h
  | nan => simp [pyFloatPos] at h

unseal Rat.add Rat.sub Rat.mul Rat.inv in
/-- The parser on representative float() inputs: plain decimals, exponent
notation, underscore separators, leading/trailing-dot forms and the named
specials parse; misplaced underscores, a bare exponent marker and the empty
string do not. -/
theorem parseFloat_forms :
    parseFloat? "1e1".toList = some (PyFloat.finite 10) ∧
    parseFloat? "-2.5E-1".toList = some (PyFloat.finite (-(1 / 4))) ∧
    parseFloat? "1_000.2_5".toList = some (PyFloat.finite (4001 / 4)) ∧
    parseFloat? ".5e1".toList = some (PyFloat.finite 5) ∧
    parseFloat? "2.".toList = some (PyFloat.finite 2) ∧
    parseFloat? " -Infinity ".toList = some PyFloat.negInf ∧
    parseFloat? "nan".toList = some PyFloat.nan ∧
    parseFloat? "1__0".toList = none ∧
    parseFloat? "_1".toList = none ∧
    parseFloat? "1_".toList = none ∧
    parseFloat? "1e".toList = none ∧
    parseFloat? "".toList = none := by
  decide

/-- Every pair in the positive map after folding `lines` either was already in
the accumulator or has a strictly positive stored score and comes from a line
that parses with a score passing the positive sign test. -/
theorem loadLines_pos_mem (lines : List (List Char)) (lex : Lexicon)
    (w : List Char) (s : ℚ)
    (h : (w, s) ∈ (loadLines lines lex).positive_words) :
    (w, s) ∈ lex.positive_words ∨
      (0 < s ∧ ∃ raw ∈ lines, ∃ v, parseLexLine raw = some (w, v) ∧
        pyFloatPos v = true) := by
  induction lines generalizing lex with
  | nil => exact Or.inl h
  | cons raw rest ih =>
    rw [loadLines] at h
    split at h
    · rcases ih _ h with h1 | ⟨hs, r, hr, hpr⟩
      · exact Or.inl h1
      · exact Or.inr ⟨hs, r, List.mem_cons_of_mem _ hr, hpr⟩
    · rename_i w' v' hp
      split at h
      · rename_i hq
        rcases ih _ h with h1 | ⟨hs, r, hr, hpr⟩
        · rcases List.mem_cons.mp h1 with he | h2
          · have hw : w = w' := (Prod.ext_iff.mp he).1
            have hs : s = pyFloatStored v' := (Prod.ext_iff.mp he).2
            refine Or.inr ⟨?_, raw, List.mem_cons_self _ _, v', ?_, hq⟩
            · rw [hs]; exact pyFloatStored_pos v' hq
            · rw [hp, hw]
          · exact Or.inl h2
        · exact Or.inr ⟨hs, r, List.mem_cons_of_mem _ hr, hpr⟩
      · split at h
        · rcases ih _ h with h1 | ⟨hs, r, hr, hpr⟩
          · exact Or.inl h1
          · exact Or.inr ⟨hs, r, List.mem_cons_of_mem _ hr, hpr⟩
        · rcases ih _ h with h1 | ⟨hs, r, hr, hpr⟩
          · exact Or.inl h1
          · exact Or.inr ⟨hs, r, List.mem_cons_of_mem _ hr, hpr⟩

/-- Splitting the scoring fold at an appended final token. -/
theorem scoreTokens_append (lex : Lexicon) (ts : List (List Char)) (t : List Char) :
    scoreTokens lex (ts ++ [t]) = scoreStep lex (scoreTokens lex ts) t := by
  simp [scoreTokens, List.foldl_append]

/-- The scoring fold never decreases `negative_score`. -/
theorem scoreFold_neg_nonneg (lex : Lexicon) (ts : List (List Char)) (acc : ScoreAcc)
    (h : 0 ≤ acc.negative_score) :
    0 ≤ (ts.foldl (scoreStep lex) acc).negative_score := by
  induction ts generalizing acc with
  | nil => exact h
  | cons t rest ih =>
    rw [List.foldl_cons]
    apply ih
    unfold scoreStep
    split
    · exact h
    · split
      · exact add_nonneg h (abs_nonneg _)
      · exact h

/-- The scoring fold never decreases `positive_count`, and when it leaves
`positive_count` unchanged it also leaves `positive_score` unchanged. -/
theorem scoreFold_pos_inv (lex : Lexicon) (ts : List (List Char)) (acc : ScoreAcc) :
    acc.positive_count ≤ (ts.foldl (scoreStep lex) acc).positive_count ∧
    ((ts.foldl (scoreStep lex) acc).positive_count = acc.positive_count →
      (ts.foldl (scoreStep lex) acc).positive_score = acc.positive_score) := by
  induction ts generalizing acc with
  | nil => exact ⟨le_refl _, fun _ => rfl⟩
  | cons t rest ih =>
    rw [List.foldl_cons]
    have hstep := ih (scoreStep lex acc t)
    rcases hpc : lex.positive_words.lookup t with _ | s
    · have hacc : scoreStep lex acc t =
          match lex.negative_words.lookup t with
          | some s => ⟨acc.positive_score, acc.negative_score + |s|,
                       acc.positive_count, acc.negative_count + 1⟩
          | none => acc := by
        unfold scoreStep
        rw [hpc]
      rcases hnc : lex.negative_words.lookup t with _ | s2
      · rw [hnc] at hacc
        rw [hacc] at hstep ⊢
        exact hstep
      · rw [hnc] at hacc
        rw [hacc] at hstep ⊢
        exact hstep
    · have hacc : scoreStep lex acc t =
          ⟨acc.positive_score + s, acc.negative_score,
           acc.positive_count + 1, acc.negative_count⟩ := by
        unfold scoreStep
        rw [hpc]
      rw [hacc] at hstep ⊢
      dsimp only at hstep
      constructor
      · exact le_trans (Nat.le_succ _) hstep.1
      · intro hfin
        have h1 := hstep.1
        rw [hfin] at h1
        omega

/-- The scoring fold never decreases `negative_count`, and when it leaves
`negative_count` unchanged it also leaves `negative_score` unchanged. -/
theorem scoreFold_negcnt_inv (lex : Lexicon) (ts : List (List Char)) (acc : ScoreAcc) :
    acc.negative_count ≤ (ts.foldl (scoreStep lex) acc).negative_count ∧
    ((ts.foldl (scoreStep lex) acc).negative_count = acc.negative_count →
      (ts.foldl (scoreStep lex) acc).negative_score = acc.negative_score) := by
  induction ts generalizing acc with
  | nil => exact ⟨le_refl _, fun _ => rfl⟩
  | cons t rest ih =>
    rw [List.foldl_cons]
    have hstep := ih (scoreStep lex acc t)
    rcases hpc : lex.positive_words.lookup t with _ | s
    · rcases hnc : lex.negative_words.lookup t with _ | s2
      · have hacc : scoreStep lex acc t = acc := by
          unfold scoreStep
          rw [hpc, hnc]
        rw [hacc] at hstep ⊢
        exact hstep
      · have hacc : scoreStep lex acc t =
            ⟨acc.positive_score, acc.negative_score + |s2|,
             acc.positive_count, acc.negative_count + 1⟩ := by
          unfold scoreStep
          rw [hpc, hnc]
        rw [hacc] at hstep ⊢
        dsimp only at hstep
        constructor
        · exact le_trans (Nat.le_succ _) hstep.1
        · intro hfin
          have h1 := hstep.1
          rw [hfin] at h1
          omega
    · have hacc : scoreStep lex acc t =
          ⟨acc.positive_score + s, acc.negative_score,
           acc.positive_count + 1, acc.negative_count⟩ := by
        unfold scoreStep
        rw [hpc]
      rw [hacc] at hstep ⊢
      exact hstep

/-- The accumulated `negative_score` of a token list is non-negative (it is a
sum of absolute values, `feature_extraction.py` line 104). -/
theorem scoreTokens_neg_nonneg (lex : Lexicon) (ts : List (List Char)) :
    0 ≤ (scoreTokens lex ts).negative_score :=
  scoreFold_neg_nonneg lex ts ⟨0, 0, 0, 0⟩ (le_refl 0)

/-- With no positively matched token, the positive score is zero. -/
theorem scoreTokens_pos_zero (lex : Lexicon) (ts : List (List Char))
    (h : (scoreTokens lex ts).positive_count = 0) :
    (scoreTokens lex ts).positive_score = 0 :=
  (scoreFold_pos_inv lex ts ⟨0, 0, 0, 0⟩).2 h

/-- With no negatively matched token, the negative score is zero. -/
theorem scoreTokens_negsc_zero (lex : Lexicon) (ts : List (List Char))
    (h : (scoreTokens lex ts).negative_count = 0) :
    (scoreTokens lex ts).negative_score = 0 :=
  (scoreFold_negcnt_inv lex ts ⟨0, 0, 0, 0⟩).2 h

/-! Character-class facts. -/

/-- Converting a valid code point back to `Nat` is the identity. -/
theorem Char_toNat_ofNat (n : Nat) (h : n < 55296) : (Char.ofNat n).toNat = n := by
  rw [Char.ofNat, dif_pos (Or.inl h)]
  simp [Char.ofNatAux, Char.toNat, UInt32.toNat, UInt32.ofNat']

/-- A whitespace character is neither an ASCII uppercase nor an ASCII
lowercase letter (its code point avoids both letter ranges). -/
theorem isPySpace_toNat_ranges (c : Char) (h : isPySpace c = true) :
    ¬ (65 ≤ c.toNat ∧ c.toNat ≤ 90) ∧ ¬ (97 ≤ c.toNat ∧ c.toNat ≤ 122) := by
  unfold isPySpace at h
  simp only [Bool.or_eq_true, Bool.and_eq_true, decide_eq_true_eq, or_assoc] at h
  omega

/-- A lowercase ASCII letter is not whitespace. -/
theorem isAsciiLower_not_pyspace (c : Char) (h : isAsciiLower c = true) :
    isPySpace c = false := by
  unfold isAsciiLower at h
  simp only [Bool.and_eq_true, decide_eq_true_eq] at h
  have hn1 : (97 : Nat) ≤ c.toNat := h.1
  have hn2 : c.toNat ≤ 122 := h.2
  by_contra hps
  rw [Bool.not_eq_false] at hps
  exact (isPySpace_toNat_ranges c hps).2 ⟨hn1, hn2⟩

/-- A whitespace character is not an ASCII uppercase letter. -/
theorem isPySpace_not_upper (c : Char) (h : isPySpace c = true) :
    isAsciiUpper c = false := by
  by_contra hu
  rw [Bool.not_eq_false] at hu
  unfold isAsciiUpper at hu
  simp only [Bool.and_eq_true, decide_eq_true_eq] at hu
  have hn1 : (65 : Nat) ≤ c.toNat := hu.1
  have hn2 : c.toNat ≤ 90 := hu.2
  exact (isPySpace_toNat_ranges c h).1 ⟨hn1, hn2⟩

/-- A lowercase ASCII letter is not an uppercase one. -/
theorem isAsciiLower_not_upper (c : Char) (h : isAsciiLower c = true) :
    isAsciiUpper c = false := by
  unfold isAsciiLower at h
  simp only [Bool.and_eq_true, decide_eq_true_eq] at h
  have hn1 : (97 : Nat) ≤ c.toNat := h.1
  by_contra hu
  rw [Bool.not_eq_false] at hu
  unfold isAsciiUpper at hu
  simp only [Bool.and_eq_true, decide_eq_true_eq] at hu
  have hn2 : c.toNat ≤ 90 := hu.2
  omega

/-- `pyLowerChar` never produces an ASCII uppercase letter. -/
theorem pyLowerChar_not_upper (c : Char) : isAsciiUpper (pyLowerChar c) = false := by
  unfold pyLowerChar
  by_cases h : isAsciiUpper c = true
  · rw [if_pos h]
    unfold isAsciiUpper at h
    simp only [Bool.and_eq_true, decide_eq_true_eq] at h
    have hn1 : (65 : Nat) ≤ c.toNat := h.1
    have hn2 : c.toNat ≤ 90 := h.2
    have hv : (Char.ofNat (c.toNat + 32)).toNat = c.toNat + 32 :=
      Char_toNat_ofNat _ (by omega)
    unfold isAsciiUpper
    have hno : ¬ (Char.ofNat (c.toNat + 32) ≤ 'Z') := by
      intro hle
      have h90 : (Char.ofNat (c.toNat + 32)).toNat ≤ 90 := hle
      omega
    simp [hno]
  · rw [if_neg h]
    exact Bool.not_eq_true _ ▸ h

/-- `pyLowerChar` fixes every character that is not ASCII uppercase; in
particular it fixes whitespace. -/
theorem pyLowerChar_fix (c : Char) (h : isAsciiUpper c = false) :
    pyLowerChar c = c := by
  unfold pyLowerChar
  rw [if_neg (by rw [h]; exact Bool.false_ne_true)]

/-! The NormalizedText invariant. -/

/-- A character allowed in normalized text: a lowercase ASCII letter or a
space. -/
def isCleanChar (c : Char) : Bool := isAsciiLower c || c = ' '

/-- No two adjacent space characters. -/
def noDouble : List Char → Bool
  | c :: d :: rest => !(c = ' ' && d = ' ') && noDouble (d :: rest)
  | _ => true

/-- The NormalizedText invariant of spec section 3: only lowercase ASCII
letters and single spaces, no leading and no trailing space. -/
def isCleanForm (l : List Char) : Bool :=
  l.all isCleanChar && !(l.head? = some ' ') && !(l.getLast? = some ' ') &&
    noDouble l

/-- `noDouble` passes to the tail. -/
theorem noDouble_tail (a : Char) (rest : List Char)
    (h : noDouble (a :: rest) = true) : noDouble rest = true := by
  cases rest with
  | nil => rfl
  | cons d r =>
    rw [noDouble, Bool.and_eq_true] at h
    exact h.2

/-- The fuelled URL scan only deletes characters. -/
theorem subURLF_sublist (n : Nat) :
    ∀ l : List Char, List.Sublist (subURLF n l) l := by
  induction n with
  | zero =>
    intro l
    cases l with
    | nil => exact List.Sublist.refl _
    | cons c cs => exact List.Sublist.refl _
  | succ n ih =>
    intro l
    cases l with
    | nil => exact List.Sublist.refl _
    | cons c cs =>
      rw [subURLF]
      split
      · exact ((ih (dropRun cs)).trans (List.dropWhile_sublist _)).trans
          (List.sublist_cons_self c cs)
      · exact List.Sublist.cons₂ c (ih cs)

/-- `subURL` only deletes characters. -/
theorem subURL_sublist (l : List Char) : List.Sublist (subURL l) l :=
  subURLF_sublist l.length l

/-- The fuelled email scan only deletes characters. -/
theorem subEmailF_sublist (n : Nat) :
    ∀ l : List Char, List.Sublist (subEmailF n l) l := by
  induction n with
  | zero =>
    intro l
    cases l with
    | nil => exact List.Sublist.refl _
    | cons c cs => exact List.Sublist.refl _
  | succ n ih =>
    intro l
    cases l with
    | nil => exact List.Sublist.refl _
    | cons c cs =>
      rw [subEmailF]
      split
      · exact ((ih (dropRun cs)).trans (List.dropWhile_sublist _)).trans
          (List.sublist_cons_self c cs)
      · exact List.Sublist.cons₂ c (ih cs)

/-- `subEmail` only deletes characters. -/
theorem subEmail_sublist (l : List Char) : List.Sublist (subEmail l) l :=
  subEmailF_sublist l.length l

/-- No character of `pyLower l` is ASCII uppercase. -/
theorem pyLower_not_upper (l : List Char) (c : Char) (h : c ∈ pyLower l) :
    isAsciiUpper c = false := by
  unfold pyLower at h
  obtain ⟨a, _, rfl⟩ := List.mem_map.mp h
  exact pyLowerChar_not_upper a

/-- After the character filter, every surviving character of the lowered,
URL- and email-stripped text is a lowercase letter or whitespace. -/
theorem keepAlphaSpace_chars (l : List Char)
    (hup : ∀ c ∈ l, isAsciiUpper c = false) (c : Char)
    (h : c ∈ keepAlphaSpace l) : (isAsciiLower c || isPySpace c) = true := by
  unfold keepAlphaSpace at h
  obtain ⟨hm, hf⟩ := List.mem_filter.mp h
  have hup' := hup c hm
  unfold isAsciiAlpha at hf
  rw [hup'] at hf
  simpa using hf

/-- A non-whitespace character is not the space character. -/
theorem ne_space_of_not_pyspace (c : Char) (h : isPySpace c = false) :
    ¬ (c = ' ') := by
  intro he
  rw [he] at h
  exact absurd h (by decide)

/-- Every character of `collapseAux b m` is a space or a non-whitespace
character of `m`. -/
theorem collapseAux_mem (b : Bool) (m : List Char) (c : Char)
    (h : c ∈ collapseAux b m) :
    c = ' ' ∨ (c ∈ m ∧ isPySpace c = false) := by
  induction m generalizing b with
  | nil => simp [collapseAux] at h
  | cons a rest ih =>
    rw [collapseAux] at h
    by_cases ha : isPySpace a = true
    · rw [if_pos ha] at h
      by_cases hb : b = true
      · rw [if_pos hb] at h
        rcases ih true h with h1 | ⟨h2, h3⟩
        · exact Or.inl h1
        · exact Or.inr ⟨List.mem_cons_of_mem _ h2, h3⟩
      · rw [if_neg hb] at h
        rcases List.mem_cons.mp h with he | h2
        · exact Or.inl he
        · rcases ih true h2 with h1 | ⟨h3, h4⟩
          · exact Or.inl h1
          · exact Or.inr ⟨List.mem_cons_of_mem _ h3, h4⟩
    · rw [if_neg ha] at h
      rcases List.mem_cons.mp h with he | h2
      · subst he
        exact Or.inr ⟨List.mem_cons_self _ _, Bool.not_eq_true _ ▸ ha⟩
      · rcases ih false h2 with h1 | ⟨h3, h4⟩
        · exact Or.inl h1
        · exact Or.inr ⟨List.mem_cons_of_mem _ h3, h4⟩

/-- With the flag set, `collapseAux` starts with a non-whitespace character
(pending whitespace is absorbed, not emitted). -/
theorem collapseAux_true_head (m : List Char) (d : Char) (rest : List Char)
    (h : collapseAux true m = d :: rest) : isPySpace d = false := by
  induction m generalizing d rest with
  | nil => simp [collapseAux] at h
  | cons a tail ih =>
    rw [collapseAux] at h
    by_cases ha : isPySpace a = true
    · rw [if_pos ha, if_pos rfl] at h
      exact ih d rest h
    · rw [if_neg ha] at h
      injection h with h1 h2
      rw [← h1]
      exact Bool.not_eq_true _ ▸ ha

/-- Whitespace collapsing never produces two adjacent spaces. -/
theorem collapseAux_noDouble (m : List Char) :
    ∀ b : Bool, noDouble (collapseAux b m) = true := by
  induction m with
  | nil => intro b; rfl
  | cons a rest ih =>
    intro b
    rw [collapseAux]
    by_cases ha : isPySpace a = true
    · rw [if_pos ha]
      by_cases hb : b = true
      · rw [if_pos hb]
        exact ih true
      · rw [if_neg hb]
        rcases hX : collapseAux true rest with _ | ⟨d, r⟩
        · rfl
        · have hd : isPySpace d = false := collapseAux_true_head rest d r hX
          have hnd : noDouble (d :: r) = true := hX ▸ ih true
          rw [noDouble, Bool.and_eq_true]
          refine ⟨?_, hnd⟩
          simp only [Bool.not_eq_eq_eq_not, Bool.not_true, Bool.and_eq_false_iff]
          right
          simpa using ne_space_of_not_pyspace d hd
    · rw [if_neg ha]
      rcases hX : collapseAux false rest with _ | ⟨d, r⟩
      · rfl
      · have hnd : noDouble (d :: r) = true := hX ▸ ih false
        rw [noDouble, Bool.and_eq_true]
        refine ⟨?_, hnd⟩
        simp only [Bool.not_eq_eq_eq_not, Bool.not_true, Bool.and_eq_false_iff]
        left
        simpa using ne_space_of_not_pyspace a (Bool.not_eq_true _ ▸ ha)

/-- Removing trailing whitespace only deletes characters. -/
theorem stripTrailing_sublist (m : List Char) :
    List.Sublist (stripTrailing m) m := by
  induction m with
  | nil => exact List.Sublist.refl _
  | cons a rest ih =>
    rw [stripTrailing]
    rcases hr : stripTrailing rest with _ | ⟨d, r⟩
    · simp only
      by_cases ha : isPySpace a = true
      · rw [if_pos ha]
        exact List.nil_sublist _
      · rw [if_neg ha]
        exact List.Sublist.cons₂ a (List.nil_sublist _)
    · simp only
      rw [hr] at ih
      exact List.Sublist.cons₂ a ih

/-- The last character left by `stripTrailing` is not whitespace. -/
theorem stripTrailing_last (m : List Char) (c : Char)
    (h : (stripTrailing m).getLast? = some c) : isPySpace c = false := by
  induction m generalizing c with
  | nil => simp [stripTrailing] at h
  | cons a rest ih =>
    rw [stripTrailing] at h
    rcases hr : stripTrailing rest with _ | ⟨d, r⟩
    · rw [hr] at h
      by_cases ha : isPySpace a = true
      · rw [if_pos ha] at h
        simp at h
      · rw [if_neg ha] at h
        simp at h
        rw [← h]
        exact Bool.not_eq_true _ ▸ ha
    · rw [hr] at h
      rw [List.getLast?_cons_cons] at h
      exact ih c (hr ▸ h)

/-- `stripTrailing` returns the empty list or keeps the original head. -/
theorem stripTrailing_head (a : Char) (rest : List Char) :
    stripTrailing (a :: rest) = [] ∨
      ∃ r, stripTrailing (a :: rest) = a :: r := by
  rw [stripTrailing]
  rcases hr : stripTrailing rest with _ | ⟨d, r⟩
  · by_cases ha : isPySpace a = true
    · rw [if_pos ha]
      exact Or.inl rfl
    · rw [if_neg ha]
      exact Or.inr ⟨[], rfl⟩
  · exact Or.inr ⟨d :: r, rfl⟩

/-- `stripTrailing` preserves the no-double-space property. -/
theorem stripTrailing_noDouble (m : List Char) (h : noDouble m = true) :
    noDouble (stripTrailing m) = true := by
  induction m with
  | nil => rfl
  | cons a rest ih =>
    rw [stripTrailing]
    rcases hr : stripTrailing rest with _ | ⟨d, r⟩
    · simp only
      by_cases ha : isPySpace a = true
      · rw [if_pos ha]
        rfl
      · rw [if_neg ha]
        rfl
    · simp only
      have hnd : noDouble (d :: r) = true := hr ▸ ih (noDouble_tail a rest h)
      cases rest with
      | nil => simp [stripTrailing] at hr
      | cons x t =>
        rcases stripTrailing_head x t with he | ⟨r2, he⟩
        · rw [he] at hr
          cases hr
        · rw [he] at hr
          injection hr with h1 h2
          rw [noDouble, Bool.and_eq_true]
          refine ⟨?_, hnd⟩
          rw [noDouble, Bool.and_eq_true] at h
          rw [← h1]
          exact h.1

/-- The head left by `dropWhile` fails the predicate. -/
theorem dropWhile_head_false (p : Char → Bool) (l : List Char) (c : Char)
    (h : (l.dropWhile p).head? = some c) : p c = false := by
  induction l with
  | nil => simp [List.dropWhile] at h
  | cons a rest ih =>
    rw [List.dropWhile_cons] at h
    by_cases ha : p a = true
    · rw [if_pos ha] at h
      exact ih h
    · rw [if_neg ha] at h
      simp at h
      rw [← h]
      exact Bool.not_eq_true _ ▸ ha

/-- Dropping a whitespace prefix preserves the no-double-space property. -/
theorem dropWhile_noDouble (l : List Char) (h : noDouble l = true) :
    noDouble (l.dropWhile isPySpace) = true := by
  induction l with
  | nil => rfl
  | cons a rest ih =>
    rw [List.dropWhile_cons]
    by_cases ha : isPySpace a = true
    · rw [if_pos ha]
      exact ih (noDouble_tail a rest h)
    · rw [if_neg ha]
      exact h

/-- Every output of `clean_text` satisfies the NormalizedText invariant:
only lowercase ASCII letters and single spaces, no leading or trailing
space.  Shared backbone of the normalization claims. -/
theorem cleanForm_clean_text (l : List Char) :
    isCleanForm (clean_text l) = true := by
  have hwch : ∀ c ∈ keepAlphaSpace (subEmail (subURL (pyLower l))),
      (isAsciiLower c || isPySpace c) = true := by
    intro c hc
    refine keepAlphaSpace_chars _ ?_ c hc
    intro d hd
    exact pyLower_not_upper l d
      ((subURL_sublist (pyLower l)).subset ((subEmail_sublist _).subset hd))
  have hmch : ∀ c ∈ collapseAux false (keepAlphaSpace (subEmail (subURL (pyLower l)))),
      isCleanChar c = true := by
    intro c hc
    rcases collapseAux_mem false _ c hc with he | ⟨hm, hns⟩
    · unfold isCleanChar
      rw [he]
      simp
    · rcases Bool.or_eq_true_iff.mp (hwch c hm) with hl | hs
      · unfold isCleanChar
        rw [hl]
        simp
      · rw [hs] at hns
        cases hns
  have hmnd : noDouble (collapseAux false (keepAlphaSpace (subEmail (subURL (pyLower l))))) = true :=
    collapseAux_noDouble _ false
  show isCleanForm (stripTrailing (List.dropWhile isPySpace
    (collapseAux false (keepAlphaSpace (subEmail (subURL (pyLower l))))))) = true
  unfold isCleanForm
  rw [Bool.and_eq_true, Bool.and_eq_true, Bool.and_eq_true]
  refine ⟨⟨⟨?_, ?_⟩, ?_⟩, ?_⟩
  · rw [List.all_eq_true]
    intro c hc
    exact hmch c ((List.dropWhile_sublist _).subset ((stripTrailing_sublist _).subset hc))
  · simp only [Bool.not_eq_eq_eq_not, Bool.not_true, decide_eq_false_iff_not]
    intro hhd
    rcases hX : List.dropWhile isPySpace
        (collapseAux false (keepAlphaSpace (subEmail (subURL (pyLower l))))) with _ | ⟨x, t⟩
    · rw [hX] at hhd
      simp [stripTrailing] at hhd
    · rw [hX] at hhd
      rcases stripTrailing_head x t with he | ⟨r, he⟩
      · rw [he] at hhd
        simp at hhd
      · rw [he] at hhd
        simp at hhd
        have hx : isPySpace x = false := by
          refine dropWhile_head_false isPySpace
            (collapseAux false (keepAlphaSpace (subEmail (subURL (pyLower l))))) x ?_
          rw [hX]
          rfl
        exact ne_space_of_not_pyspace x hx hhd
  · simp only [Bool.not_eq_eq_eq_not, Bool.not_true, decide_eq_false_iff_not]
    intro hlast
    have := stripTrailing_last _ _ hlast
    exact absurd this (by decide)
  · exact stripTrailing_noDouble _ (dropWhile_noDouble _ hmnd)

/-! Fixed points of the cleaning pass. -/

/-- Tests whether `pat` occurs as a contiguous substring of `l`. -/
def hasSub (pat : List Char) : List Char → Bool
  | [] => pat.isEmpty
  | c :: cs => pat.isPrefixOf (c :: cs) || hasSub pat cs

/-- `getLast?` yields a member of the list. -/
theorem getLast?_mem (l : List Char) (c : Char) (h : l.getLast? = some c) :
    c ∈ l := by
  induction l with
  | nil => simp at h
  | cons a rest ih =>
    cases rest with
    | nil =>
      simp at h
      simp [h]
    | cons d t =>
      rw [List.getLast?_cons_cons] at h
      exact List.mem_cons_of_mem _ (ih h)

/-- Lowercasing fixes a string of clean characters. -/
theorem pyLower_id (y : List Char) (h : ∀ c ∈ y, isCleanChar c = true) :
    pyLower y = y := by
  induction y with
  | nil => rfl
  | cons a rest ih =>
    have ha := h a (List.mem_cons_self _ _)
    have hfix : pyLowerChar a = a := by
      rcases Bool.or_eq_true_iff.mp ha with hl | hs
      · exact pyLowerChar_fix a (isAsciiLower_not_upper a hl)
      · have : a = ' ' := of_decide_eq_true hs
        rw [this]
        exact pyLowerChar_fix ' ' (by decide)
    show pyLowerChar a :: pyLower rest = a :: rest
    rw [hfix, ih (fun c hc => h c (List.mem_cons_of_mem _ hc))]

/-- The fuelled URL scan fixes any string with no `http` and no `www`
substring. -/
theorem subURLF_id (n : Nat) :
    ∀ l : List Char, hasSub httpChars l = false → hasSub wwwChars l = false →
      subURLF n l = l := by
  induction n with
  | zero =>
    intro l _ _
    cases l with
    | nil => rfl
    | cons c cs => rfl
  | succ n ih =>
    intro l h1 h2
    cases l with
    | nil => rfl
    | cons c cs =>
      rw [hasSub, Bool.or_eq_false_iff] at h1 h2
      have hurl : urlStartsAt (c :: cs) = false := by
        unfold urlStartsAt
        rw [h1.1, h2.1]
        rfl
      rw [subURLF, if_neg (by rw [hurl]; exact Bool.false_ne_true)]
      rw [ih cs h1.2 h2.2]

/-- The fuelled email scan fixes any string without an `@`. -/
theorem subEmailF_id (n : Nat) :
    ∀ l : List Char, ('@' ∈ l → False) → subEmailF n l = l := by
  induction n with
  | zero =>
    intro l _
    cases l with
    | nil => rfl
    | cons c cs => rfl
  | succ n ih =>
    intro l hat
    cases l with
    | nil => rfl
    | cons c cs =>
      have hmail : emailStartsAt (c :: cs) = false := by
        by_contra hx
        rw [Bool.not_eq_false] at hx
        unfold emailStartsAt at hx
        have hmem : '@' ∈ ((takeRun (c :: cs)).drop 1).dropLast :=
          List.mem_of_elem_eq_true hx
        exact hat ((List.takeWhile_sublist _).subset
          ((List.drop_sublist _ _).subset ((List.dropLast_sublist _).subset hmem)))
      rw [subEmailF, if_neg (by rw [hmail]; exact Bool.false_ne_true)]
      rw [ih cs (fun hm => hat (List.mem_cons_of_mem _ hm))]

/-- The character filter fixes a string of clean characters. -/
theorem keepAlphaSpace_id (y : List Char) (h : ∀ c ∈ y, isCleanChar c = true) :
    keepAlphaSpace y = y := by
  unfold keepAlphaSpace
  rw [List.filter_eq_self]
  intro a ha
  rcases Bool.or_eq_true_iff.mp (h a ha) with hl | hs
  · unfold isAsciiAlpha
    rw [hl]
    simp
  · have : a = ' ' := of_decide_eq_true hs
    rw [this]
    decide

/-- Whitespace collapsing fixes a clean-form string (single spaces, none
trailing). -/
theorem collapseAux_id : ∀ (y : List Char), (∀ c ∈ y, isCleanChar c = true) →
    noDouble y = true → (∀ c, y.getLast? = some c → ¬ c = ' ') →
    collapseAux false y = y
  | [], _, _, _ => rfl
  | [c], hc, _, hl => by
    have hcs : ¬ c = ' ' := hl c rfl
    have hlc : isAsciiLower c = true := by
      rcases Bool.or_eq_true_iff.mp (hc c (List.mem_cons_self _ _)) with h | h
      · exact h
      · exact absurd (of_decide_eq_true h) hcs
    have hns : isPySpace c = false := isAsciiLower_not_pyspace c hlc
    rw [collapseAux, if_neg (by rw [hns]; exact Bool.false_ne_true)]
    rfl
  | c :: d :: rest, hc, hnd, hl => by
    have hndt : noDouble (d :: rest) = true := noDouble_tail _ _ hnd
    have hct : ∀ x ∈ d :: rest, isCleanChar x = true :=
      fun x hx => hc x (List.mem_cons_of_mem _ hx)
    have hlt : ∀ x, (d :: rest).getLast? = some x → ¬ x = ' ' := by
      intro x hx
      exact hl x (by rw [List.getLast?_cons_cons]; exact hx)
    have ihr : collapseAux false (d :: rest) = d :: rest :=
      collapseAux_id (d :: rest) hct hndt hlt
    by_cases hcsp : c = ' '
    · have hdne : ¬ d = ' ' := by
        rw [noDouble, Bool.and_eq_true] at hnd
        intro hde
        have h1 := hnd.1
        rw [hcsp, hde] at h1
        simp at h1
      have hdl : isAsciiLower d = true := by
        rcases Bool.or_eq_true_iff.mp (hc d (List.mem_cons_of_mem _
          (List.mem_cons_self _ _))) with h | h
        · exact h
        · exact absurd (of_decide_eq_true h) hdne
      have hdns : isPySpace d = false := isAsciiLower_not_pyspace d hdl
      have hstep : collapseAux false (d :: rest) = d :: collapseAux false rest := by
        rw [collapseAux, if_neg (by rw [hdns]; exact Bool.false_ne_true)]
      have htail : collapseAux false rest = rest := by
        rw [hstep] at ihr
        injection ihr
      subst hcsp
      rw [collapseAux, if_pos (by decide), if_neg Bool.false_ne_true]
      rw [collapseAux, if_neg (by rw [hdns]; exact Bool.false_ne_true)]
      rw [htail]
    · have hcl : isAsciiLower c = true := by
        rcases Bool.or_eq_true_iff.mp (hc c (List.mem_cons_self _ _)) with h | h
        · exact h
        · exact absurd (of_decide_eq_true h) hcsp
      have hcns : isPySpace c = false := isAsciiLower_not_pyspace c hcl
      rw [collapseAux, if_neg (by rw [hcns]; exact Bool.false_ne_true)]
      rw [ihr]

/-- Dropping a whitespace prefix fixes a string whose head is not
whitespace. -/
theorem dropWhile_id_of_head (l : List Char)
    (h : ∀ c, l.head? = some c → isPySpace c = false) :
    l.dropWhile isPySpace = l := by
  cases l with
  | nil => rfl
  | cons a rest =>
    rw [List.dropWhile_cons, if_neg]
    rw [h a rfl]
    exact Bool.false_ne_true

/-- Removing trailing whitespace fixes a string whose last character is not
whitespace. -/
theorem stripTrailing_id : ∀ (l : List Char),
    (∀ c, l.getLast? = some c → isPySpace c = false) → stripTrailing l = l
  | [], _ => rfl
  | [c], h => by
    rw [stripTrailing]
    rw [if_neg (by rw [h c rfl]; exact Bool.false_ne_true)]
    rfl
  | c :: d :: rest, h => by
    have ht : stripTrailing (d :: rest) = d :: rest :=
      stripTrailing_id (d :: rest)
        (fun x hx => h x (by rw [List.getLast?_cons_cons]; exact hx))
    rw [stripTrailing, ht]

/-- A clean-form string with no `http` and no `www` substring is a fixed
point of `clean_text`.  Shared backbone of the idempotence claim. -/
theorem clean_text_fixed (y : List Char) (hy : isCleanForm y = true)
    (h1 : hasSub httpChars y = false) (h2 : hasSub wwwChars y = false) :
    clean_text y = y := by
  unfold isCleanForm at hy
  rw [Bool.and_eq_true, Bool.and_eq_true, Bool.and_eq_true] at hy
  obtain ⟨⟨⟨hall, hhd⟩, hlast⟩, hnd⟩ := hy
  rw [List.all_eq_true] at hall
  simp only [Bool.not_eq_eq_eq_not, Bool.not_true, decide_eq_false_iff_not] at hhd hlast
  have hheadns : ∀ c, y.head? = some c → isPySpace c = false := by
    intro c hcx
    have hcm : c ∈ y := by
      cases y with
      | nil => simp at hcx
      | cons a rest =>
        simp at hcx
        rw [hcx]
        exact List.mem_cons_self _ _
    rcases Bool.or_eq_true_iff.mp (hall c hcm) with hlw | hsp
    · exact isAsciiLower_not_pyspace c hlw
    · have : c = ' ' := of_decide_eq_true hsp
      rw [this] at hcx
      exact absurd hcx hhd
  have hlastns : ∀ c, y.getLast? = some c → isPySpace c = false := by
    intro c hcx
    rcases Bool.or_eq_true_iff.mp (hall c (getLast?_mem y c hcx)) with hlw | hsp
    · exact isAsciiLower_not_pyspace c hlw
    · have : c = ' ' := of_decide_eq_true hsp
      rw [this] at hcx
      exact absurd hcx hlast
  have hat : '@' ∈ y → False := by
    intro hm
    have := hall '@' hm
    exact absurd this (by decide)
  unfold clean_text collapseWs pyStrip
  rw [pyLower_id y hall]
  show stripTrailing (List.dropWhile isPySpace
    (collapseAux false (keepAlphaSpace (subEmail (subURL y))))) = y
  rw [show subURL y = y from subURLF_id y.length y h1 h2]
  rw [show subEmail y = y from subEmailF_id y.length y hat]
  rw [keepAlphaSpace_id y hall]
  rw [collapseAux_id y hall hnd
    (fun c hcx => ne_space_of_not_pyspace c (hlastns c hcx))]
  rw [dropWhile_id_of_head y hheadns]
  exact stripTrailing_id y hlastns

/-! Whitespace-only inputs clean to the empty string. -/

/-- Lowercasing fixes whitespace. -/
theorem pyLower_allspace (l : List Char) (h : ∀ c ∈ l, isPySpace c = true) :
    pyLower l = l := by
  induction l with
  | nil => rfl
  | cons a rest ih =>
    show pyLowerChar a :: pyLower rest = a :: rest
    rw [pyLowerChar_fix a (isPySpace_not_upper a (h a (List.mem_cons_self _ _)))]
    rw [ih (fun c hc => h c (List.mem_cons_of_mem _ hc))]

/-- The URL scan fixes whitespace-only strings (no match can start on a
whitespace character). -/
theorem subURLF_allspace (n : Nat) :
    ∀ l : List Char, (∀ c ∈ l, isPySpace c = true) → subURLF n l = l := by
  induction n with
  | zero =>
    intro l _
    cases l with
    | nil => rfl
    | cons c cs => rfl
  | succ n ih =>
    intro l h
    cases l with
    | nil => rfl
    | cons c cs =>
      have hc := h c (List.mem_cons_self _ _)
      have hne1 : ('h' == c) = false := by
        by_contra hx
        rw [Bool.not_eq_false] at hx
        rw [← eq_of_beq hx] at hc
        exact absurd hc (by decide)
      have hne2 : ('w' == c) = false := by
        by_contra hx
        rw [Bool.not_eq_false] at hx
        rw [← eq_of_beq hx] at hc
        exact absurd hc (by decide)
      have hpre1 : httpChars.isPrefixOf (c :: cs) = false := by
        show ('h' == c && List.isPrefixOf ['t', 't', 'p'] cs) = false
        rw [hne1]
        rfl
      have hpre2 : wwwChars.isPrefixOf (c :: cs) = false := by
        show ('w' == c && List.isPrefixOf ['w', 'w'] cs) = false
        rw [hne2]
        rfl
      have hurl : urlStartsAt (c :: cs) = false := by
        unfold urlStartsAt
        rw [hpre1, hpre2]
        rfl
      rw [subURLF, if_neg (by rw [hurl]; exact Bool.false_ne_true)]
      rw [ih cs (fun d hd => h d (List.mem_cons_of_mem _ hd))]

/-- The email scan fixes whitespace-only strings. -/
theorem subEmailF_allspace (n : Nat) :
    ∀ l : List Char, (∀ c ∈ l, isPySpace c = true) → subEmailF n l = l := by
  induction n with
  | zero =>
    intro l _
    cases l with
    | nil => rfl
    | cons c cs => rfl
  | succ n ih =>
    intro l h
    cases l with
    | nil => rfl
    | cons c cs =>
      have hc := h c (List.mem_cons_self _ _)
      have hmail : emailStartsAt (c :: cs) = false := by
        unfold emailStartsAt takeRun
        rw [List.takeWhile_cons, if_neg (by rw [hc]; decide)]
        rfl
      rw [subEmailF, if_neg (by rw [hmail]; exact Bool.false_ne_true)]
      rw [ih cs (fun d hd => h d (List.mem_cons_of_mem _ hd))]

/-- The character filter keeps whitespace. -/
theorem keepAlphaSpace_allspace (l : List Char)
    (h : ∀ c ∈ l, isPySpace c = true) : keepAlphaSpace l = l := by
  unfold keepAlphaSpace
  rw [List.filter_eq_self]
  intro a ha
  rw [h a ha]
  simp

/-- With the flag set, collapsing a whitespace-only string gives nothing. -/
theorem collapseAux_true_allspace (l : List Char)
    (h : ∀ c ∈ l, isPySpace c = true) : collapseAux true l = [] := by
  induction l with
  | nil => rfl
  | cons a rest ih =>
    rw [collapseAux, if_pos (h a (List.mem_cons_self _ _)), if_pos rfl]
    exact ih (fun c hc => h c (List.mem_cons_of_mem _ hc))

/-- Cleaning a whitespace-only input yields the empty string. -/
theorem clean_text_allspace (l : List Char)
    (h : ∀ c ∈ l, isPySpace c = true) : clean_text l = [] := by
  unfold clean_text
  rw [pyLower_allspace l h]
  rw [show subURL l = l from subURLF_allspace l.length l h]
  rw [show subEmail l = l from subEmailF_allspace l.length l h]
  rw [keepAlphaSpace_allspace l h]
  cases l with
  | nil => rfl
  | cons a rest =>
    show pyStrip (collapseAux false (a :: rest)) = []
    rw [collapseAux, if_pos (h a (List.mem_cons_self _ _)),
      if_neg Bool.false_ne_true]
    rw [collapseAux_true_allspace rest (fun c hc => h c (List.mem_cons_of_mem _ hc))]
    decide

/-! Classifier-level helper lemmas. -/

/-- The label part of `classify` is the label part of `classifyRaw` (the
word-count adjustment touches only the confidence). -/
theorem classify_label (fs : FeatureSet) : (classify fs).1 = (classifyRaw fs).1 := rfl

/-- The classifier labels `Positive` exactly on scores strictly above the
positive threshold. -/
theorem classifyRaw_pos_iff (fs : FeatureSet) :
    (classifyRaw fs).1 = "Positive" ↔ positive_threshold < fs.normalized_score := by
  unfold classifyRaw
  by_cases h1 : positive_threshold < fs.normalized_score
  · rw [if_pos h1]
    exact ⟨fun _ => h1, fun _ => rfl⟩
  · rw [if_neg h1]
    by_cases h2 : fs.normalized_score < negative_threshold
    · rw [if_pos h2]
      exact ⟨fun hx => absurd (show ("Negative" : String) = "Positive" from hx)
        (by decide), fun hx => absurd hx h1⟩
    · rw [if_neg h2]
      exact ⟨fun hx => absurd (show ("Neutral" : String) = "Positive" from hx)
        (by decide), fun hx => absurd hx h1⟩

/-- The classifier labels `Negative` exactly on scores strictly below the
negative threshold. -/
theorem classifyRaw_neg_iff (fs : FeatureSet) :
    (classifyRaw fs).1 = "Negative" ↔ fs.normalized_score < negative_threshold := by
  unfold classifyRaw
  by_cases h1 : positive_threshold < fs.normalized_score
  · rw [if_pos h1]
    constructor
    · intro hx
      exact absurd (show ("Positive" : String) = "Negative" from hx) (by decide)
    · intro hx
      have : negative_threshold < positive_threshold := by
        unfold positive_threshold negative_threshold
        norm_num
      exact absurd (lt_trans h1 (lt_trans hx this)) (lt_irrefl _)
  · rw [if_neg h1]
    by_cases h2 : fs.normalized_score < negative_threshold
    · rw [if_pos h2]
      exact ⟨fun _ => h2, fun _ => rfl⟩
    · rw [if_neg h2]
      exact ⟨fun hx => absurd (show ("Neutral" : String) = "Negative" from hx)
        (by decide), fun hx => absurd hx h2⟩

/-- Bounds on the raw confidence before the word-count adjustment. -/
theorem classifyRaw_conf_bounds (fs : FeatureSet) :
    0 ≤ (classifyRaw fs).2 ∧ (classifyRaw fs).2 ≤ 100 := by
  unfold classifyRaw
  by_cases h1 : positive_threshold < fs.normalized_score
  · rw [if_pos h1]
    show 0 ≤ min (fs.normalized_score * 100) 100 ∧
      min (fs.normalized_score * 100) 100 ≤ 100
    constructor
    · apply le_min
      · have h0 : (0 : ℚ) < fs.normalized_score := by
          refine lt_trans ?_ h1
          unfold positive_threshold
          norm_num
        exact mul_nonneg (le_of_lt h0) (by norm_num)
      · norm_num
    · exact min_le_right _ _
  · rw [if_neg h1]
    by_cases h2 : fs.normalized_score < negative_threshold
    · rw [if_pos h2]
      show 0 ≤ min (|fs.normalized_score| * 100) 100 ∧
        min (|fs.normalized_score| * 100) 100 ≤ 100
      constructor
      · exact le_min (mul_nonneg (abs_nonneg _) (by norm_num)) (by norm_num)
      · exact min_le_right _ _
    · rw [if_neg h2]
      norm_num

/-- Bounds on the adjusted confidence before rounding. -/
theorem boost_conf_bounds (fs : FeatureSet) :
    0 ≤ boostConfidence fs (classifyRaw fs).2 ∧
      boostConfidence fs (classifyRaw fs).2 ≤ 100 := by
  have hraw := classifyRaw_conf_bounds fs
  unfold boostConfidence
  split
  · constructor
    · exact le_min (by linarith [hraw.1]) (by norm_num)
    · exact min_le_right _ _
  · exact hraw

unseal Rat.add Rat.sub Rat.mul Rat.inv in
/-- Unfolding `pyRound 50 2`. -/
theorem pyRound_50 : pyRound 50 2 = 50 := by decide

unseal Rat.add Rat.sub Rat.mul Rat.inv in
/-- Unfolding `pyRound 0 4`. -/
theorem pyRound_0 : pyRound 0 4 = 0 := by decide

/-- A feature set with zero score and zero matched counts classifies Neutral
with confidence 50 (no boost). -/
theorem classify_neutral_zero (fs : FeatureSet) (hns : fs.normalized_score = 0)
    (hpc : fs.positive_count = 0) (hnc : fs.negative_count = 0) :
    classify fs = ("Neutral", 50) := by
  have hraw : classifyRaw fs = ("Neutral", 50) := by
    unfold classifyRaw
    rw [hns]
    rw [if_neg (by norm_num [positive_threshold, negative_threshold]),
      if_neg (by norm_num [positive_threshold, negative_threshold])]
  show ((classifyRaw fs).1, pyRound (boostConfidence fs (classifyRaw fs).2) 2) =
    ("Neutral", 50)
  rw [hraw]
  unfold boostConfidence
  rw [hpc, hnc]
  rw [if_neg (by decide)]
  rw [pyRound_50]

/-! Claim theorems. -/

/-- C1: a FeatureSet with normalized_score exactly 0.05 classifies Neutral,
and likewise for exactly -0.05; the Positive label needs a score strictly
above the 0.05 threshold and the Negative label strictly below -0.05. -/
theorem c1_threshold_boundary (fs1 fs2 : FeatureSet)
    (h1 : fs1.normalized_score = 1 / 20)
    (h2 : fs2.normalized_score = -(1 / 20)) :
    (classify fs1).1 = "Neutral" ∧ (classify fs2).1 = "Neutral" ∧
    (∀ fs : FeatureSet,
      ((classify fs).1 = "Positive" ↔ 1 / 20 < fs.normalized_score) ∧
      ((classify fs).1 = "Negative" ↔ fs.normalized_score < -(1 / 20))) := by
  refine ⟨?_, ?_, ?_⟩
  · rw [classify_label]
    unfold classifyRaw
    rw [h1]
    rw [if_neg (by norm_num [positive_threshold, negative_threshold]),
      if_neg (by norm_num [positive_threshold, negative_threshold])]
  · rw [classify_label]
    unfold classifyRaw
    rw [h2]
    rw [if_neg (by norm_num [positive_threshold, negative_threshold]),
      if_neg (by norm_num [positive_threshold, negative_threshold])]
  · intro fs
    constructor
    · rw [classify_label]
      exact classifyRaw_pos_iff fs
    · rw [classify_label]
      exact classifyRaw_neg_iff fs

/-- Witness for C1 at two concrete boundary FeatureSets. -/
theorem c1_threshold_boundary_witness :
    (classify ⟨0, 0, 0, 1 / 20, 0, 0, 0, 0, [], 0, 0, 0⟩).1 = "Neutral" ∧
    (classify ⟨0, 0, 0, -(1 / 20), 0, 0, 0, 0, [], 0, 0, 0⟩).1 = "Neutral" :=
  ⟨(c1_threshold_boundary ⟨0, 0, 0, 1 / 20, 0, 0, 0, 0, [], 0, 0, 0⟩
      ⟨0, 0, 0, -(1 / 20), 0, 0, 0, 0, [], 0, 0, 0⟩ rfl rfl).1,
   (c1_threshold_boundary ⟨0, 0, 0, 1 / 20, 0, 0, 0, 0, [], 0, 0, 0⟩
      ⟨0, 0, 0, -(1 / 20), 0, 0, 0, 0, [], 0, 0, 0⟩ rfl rfl).2.1⟩

/-- C3: for every FeatureSet, the confidence produced by the classifier --
after the threshold branch, the +20 word-count boost, and the final
two-decimal rounding -- lies in the closed interval [0, 100]. -/
theorem c3_confidence_bounded (fs : FeatureSet) :
    0 ≤ (classify fs).2 ∧ (classify fs).2 ≤ 100 := by
  have hb := boost_conf_bounds fs
  show 0 ≤ pyRound (boostConfidence fs (classifyRaw fs).2) 2 ∧
    pyRound (boostConfidence fs (classifyRaw fs).2) 2 ≤ 100
  constructor
  · have := pyRound_ge_int (boostConfidence fs (classifyRaw fs).2) 2 0
      (by exact_mod_cast hb.1)
    exact_mod_cast this
  · have := pyRound_le_int (boostConfidence fs (classifyRaw fs).2) 2 100
      (by exact_mod_cast hb.2)
    exact_mod_cast this

/-- C8: the classifier ignores negation_count -- two FeatureSets that agree
on normalized_score, positive_count and negative_count receive the same
label and confidence, whatever their negation_count. -/
theorem c8_negation_count_irrelevant (f1 f2 : FeatureSet)
    (hn : f1.normalized_score = f2.normalized_score)
    (hp : f1.positive_count = f2.positive_count)
    (hg : f1.negative_count = f2.negative_count) :
    classify f1 = classify f2 := by
  unfold classify classifyRaw boostConfidence
  rw [hn, hp, hg]

/-- Witness for C8 at two concrete FeatureSets differing only in
negation_count. -/
theorem c8_negation_count_irrelevant_witness :
    classify ⟨3, 0, 3, 1, 1, 0, 0, 3, [], 0, 3, 4⟩ =
      classify ⟨3, 0, 3, 1, 1, 0, 7, 3, [], 0, 3, 4⟩ ∧
    (⟨3, 0, 3, 1, 1, 0, 0, 3, [], 0, 3, 4⟩ : FeatureSet).negation_count ≠
      (⟨3, 0, 3, 1, 1, 0, 7, 3, [], 0, 3, 4⟩ : FeatureSet).negation_count :=
  ⟨c8_negation_count_irrelevant _ _ rfl rfl rfl, by decide⟩

/-- C6: normalization is total and its output satisfies the NormalizedText
invariant -- for every input, including the empty string, `clean_text`
returns a string of lowercase ASCII letters and single spaces with no
leading or trailing space. -/
theorem c6_normalize_invariant (x : List Char) :
    isCleanForm (clean_text x) = true :=
  cleanForm_clean_text x

/-- C5 fails on the code: `clean_text "ww!wa"` is `"wwwa"` (punctuation
stripping glues the letters into a `www`-prefixed word), and a second pass
deletes it entirely, so `clean_text` is not idempotent. -/
theorem c5_counterexample :
    clean_text (clean_text "ww!wa".toList) ≠ clean_text "ww!wa".toList := by
  decide

/-- C5 amended: normalization is idempotent on every input whose normalized
output contains no `http` and no `www` substring (the only patterns the
URL-stripping pass can still match on a normalized string). -/
theorem c5_normalize_projection (x : List Char)
    (h1 : hasSub httpChars (clean_text x) = false)
    (h2 : hasSub wwwChars (clean_text x) = false) :
    clean_text (clean_text x) = clean_text x :=
  clean_text_fixed (clean_text x) (cleanForm_clean_text x) h1 h2

/-- Witness for C5 at a concrete input. -/
theorem c5_normalize_projection_witness :
    hasSub httpChars (clean_text "Hello, World!".toList) = false ∧
    hasSub wwwChars (clean_text "Hello, World!".toList) = false ∧
    clean_text (clean_text "Hello, World!".toList) =
      clean_text "Hello, World!".toList :=
  ⟨by decide, by decide, c5_normalize_projection _ (by decide) (by decide)⟩

/-- The scoring fold over the empty lexicon changes nothing. -/
theorem scoreFold_empty_lex (ts : List (List Char)) (acc : ScoreAcc) :
    ts.foldl (scoreStep (⟨[], []⟩ : Lexicon)) acc = acc := by
  induction ts generalizing acc with
  | nil => rfl
  | cons t rest ih =>
    rw [List.foldl_cons]
    have hstep : scoreStep (⟨[], []⟩ : Lexicon) acc t = acc := rfl
    rw [hstep]
    exact ih acc

/-- Scoring any token list against the empty lexicon yields all zeroes. -/
theorem scoreTokens_empty_lex (ts : List (List Char)) :
    scoreTokens (⟨[], []⟩ : Lexicon) ts = ⟨0, 0, 0, 0⟩ :=
  scoreFold_empty_lex ts ⟨0, 0, 0, 0⟩

/-- Normalized score of any token list under the empty lexicon is zero. -/
theorem extract_empty_lex_ns (ts : List (List Char)) :
    (extract_features (⟨[], []⟩ : Lexicon) ts).normalized_score = 0 := by
  show (if 0 < ts.length then
      ((scoreTokens (⟨[], []⟩ : Lexicon) ts).positive_score -
        (scoreTokens (⟨[], []⟩ : Lexicon) ts).negative_score) / (ts.length : ℚ)
    else 0) = 0
  rw [scoreTokens_empty_lex ts]
  split
  · norm_num
  · rfl

/-- Positive count under the empty lexicon is zero. -/
theorem extract_empty_lex_pc (ts : List (List Char)) :
    (extract_features (⟨[], []⟩ : Lexicon) ts).positive_count = 0 := by
  show (scoreTokens (⟨[], []⟩ : Lexicon) ts).positive_count = 0
  rw [scoreTokens_empty_lex ts]

/-- Negative count under the empty lexicon is zero. -/
theorem extract_empty_lex_nc (ts : List (List Char)) :
    (extract_features (⟨[], []⟩ : Lexicon) ts).negative_count = 0 := by
  show (scoreTokens (⟨[], []⟩ : Lexicon) ts).negative_count = 0
  rw [scoreTokens_empty_lex ts]

/-- C2: the full analyze pipeline maps the empty string and every
whitespace-only input to label Neutral with confidence 50, zero
positive_words, zero negative_words, zero total_words, and sentiment_score
0 -- in particular normalized_score is taken to be 0 when token_count is 0,
with no division by zero. -/
theorem c2_whitespace_input_neutral (lex : Lexicon) (stop : List (List Char))
    (red : List Char → List Char) (text : List Char)
    (h : ∀ c ∈ text, isPySpace c = true) :
    (analyze_sentiment lex stop red text).sentiment = "Neutral" ∧
    (analyze_sentiment lex stop red text).confidence = 50 ∧
    (analyze_sentiment lex stop red text).positive_words = 0 ∧
    (analyze_sentiment lex stop red text).negative_words = 0 ∧
    (analyze_sentiment lex stop red text).total_words = 0 ∧
    (analyze_sentiment lex stop red text).sentiment_score = 0 := by
  have hclean : clean_text text = [] := clean_text_allspace text h
  have hP : (remove_stopwords stop (tokenize (clean_text text))).map red = [] := by
    rw [hclean]
    rfl
  have hcl : classify (extract_features lex
      ((remove_stopwords stop (tokenize (clean_text text))).map red)) =
      ("Neutral", 50) := by
    rw [hP]
    exact classify_neutral_zero _ rfl rfl rfl
  refine ⟨?_, ?_, ?_, ?_, ?_, ?_⟩
  · show (classify (extract_features lex
      ((remove_stopwords stop (tokenize (clean_text text))).map red))).1 = "Neutral"
    rw [hcl]
  · show (classify (extract_features lex
      ((remove_stopwords stop (tokenize (clean_text text))).map red))).2 = 50
    rw [hcl]
  · show (extract_features lex
      ((remove_stopwords stop (tokenize (clean_text text))).map red)).positive_count = 0
    rw [hP]
    rfl
  · show (extract_features lex
      ((remove_stopwords stop (tokenize (clean_text text))).map red)).negative_count = 0
    rw [hP]
    rfl
  · show (extract_features lex
      ((remove_stopwords stop (tokenize (clean_text text))).map red)).token_count = 0
    rw [hP]
    rfl
  · show pyRound (extract_features lex
      ((remove_stopwords stop (tokenize (clean_text text))).map red)).normalized_score 4 = 0
    rw [hP]
    exact pyRound_0

/-- Witness for C2 at a concrete whitespace-only input. -/
theorem c2_whitespace_input_neutral_witness :
    (analyze_sentiment ⟨[], []⟩ [] id (' ' :: '\t' :: [])).sentiment = "Neutral" ∧
    (analyze_sentiment ⟨[], []⟩ [] id (' ' :: '\t' :: [])).confidence = 50 ∧
    (analyze_sentiment ⟨[], []⟩ [] id (' ' :: '\t' :: [])).positive_words = 0 ∧
    (analyze_sentiment ⟨[], []⟩ [] id (' ' :: '\t' :: [])).negative_words = 0 ∧
    (analyze_sentiment ⟨[], []⟩ [] id (' ' :: '\t' :: [])).total_words = 0 ∧
    (analyze_sentiment ⟨[], []⟩ [] id (' ' :: '\t' :: [])).sentiment_score = 0 :=
  c2_whitespace_input_neutral ⟨[], []⟩ [] id (' ' :: '\t' :: []) (by decide)

/-- C7: with the lexicon file absent, `load_lexicon` yields the empty
lexicon (both maps empty) and raises nothing; every subsequent analyze call
still returns a well-formed result, degrading to Neutral with confidence 50
and zero matched words, since no token can match. -/
theorem c7_missing_lexicon_degrades (stop : List (List Char))
    (red : List Char → List Char) (text : List Char) :
    (load_lexicon none).positive_words = [] ∧
    (load_lexicon none).negative_words = [] ∧
    (analyze_sentiment (load_lexicon none) stop red text).sentiment = "Neutral" ∧
    (analyze_sentiment (load_lexicon none) stop red text).confidence = 50 ∧
    (analyze_sentiment (load_lexicon none) stop red text).positive_words = 0 ∧
    (analyze_sentiment (load_lexicon none) stop red text).negative_words = 0 := by
  have hcl : classify (extract_features (⟨[], []⟩ : Lexicon)
      ((remove_stopwords stop (tokenize (clean_text text))).map red)) =
      ("Neutral", 50) :=
    classify_neutral_zero _ (extract_empty_lex_ns _) (extract_empty_lex_pc _)
      (extract_empty_lex_nc _)
  refine ⟨rfl, rfl, ?_, ?_, ?_, ?_⟩
  · show (classify (extract_features (⟨[], []⟩ : Lexicon)
      ((remove_stopwords stop (tokenize (clean_text text))).map red))).1 = "Neutral"
    rw [hcl]
  · show (classify (extract_features (⟨[], []⟩ : Lexicon)
      ((remove_stopwords stop (tokenize (clean_text text))).map red))).2 = 50
    rw [hcl]
  · exact extract_empty_lex_pc _
  · exact extract_empty_lex_nc _

unseal Rat.add Rat.sub Rat.mul Rat.inv in
/-- C9 fails on the code: appending the positively scored token `good`
(score 1) to the sequence `[great]` (score 5) drops normalized_score from 5
to 3, because the denominator grows with the token count. -/
theorem c9_counterexample :
    (extract_features ⟨[("great".toList, 5), ("good".toList, 1)], []⟩
        (["great".toList] ++ ["good".toList])).normalized_score <
      (extract_features ⟨[("great".toList, 5), ("good".toList, 1)], []⟩
        ["great".toList]).normalized_score := by
  decide

/-- C9 amended: appending a token with a strictly positive lexicon score
strictly raises normalized_score above `total_score / (token_count + 1)` --
the value the extended sequence would have had the new token matched
nothing, i.e. with the token-count increase accounted for -- and appending
a strictly negative-scored token (not shadowed by the positive map)
strictly lowers it below that baseline. -/
theorem c9_monotone_amended (lex : Lexicon) (ts : List (List Char))
    (t : List Char) (s : ℚ) :
    (lex.positive_words.lookup t = some s → 0 < s →
      (extract_features lex ts).total_score / ((ts.length : ℚ) + 1) <
        (extract_features lex (ts ++ [t])).normalized_score) ∧
    (lex.positive_words.lookup t = none →
      lex.negative_words.lookup t = some s → s < 0 →
      (extract_features lex (ts ++ [t])).normalized_score <
        (extract_features lex ts).total_score / ((ts.length : ℚ) + 1)) := by
  have hlen : (((ts ++ [t]).length : ℕ) : ℚ) = (ts.length : ℚ) + 1 := by
    push_cast [List.length_append]
    norm_num
  have hlpos : 0 < (ts ++ [t]).length := by simp
  have hd : (0 : ℚ) < (ts.length : ℚ) + 1 := by positivity
  have htotdef : (extract_features lex ts).total_score =
      (scoreTokens lex ts).positive_score - (scoreTokens lex ts).negative_score := rfl
  constructor
  · intro hlk hs
    have hstep : scoreTokens lex (ts ++ [t]) =
        ⟨(scoreTokens lex ts).positive_score + s,
         (scoreTokens lex ts).negative_score,
         (scoreTokens lex ts).positive_count + 1,
         (scoreTokens lex ts).negative_count⟩ := by
      rw [scoreTokens_append]
      unfold scoreStep
      rw [hlk]
    have hns : (extract_features lex (ts ++ [t])).normalized_score =
        ((scoreTokens lex ts).positive_score + s -
          (scoreTokens lex ts).negative_score) / ((ts.length : ℚ) + 1) := by
      show (if 0 < (ts ++ [t]).length then
          ((scoreTokens lex (ts ++ [t])).positive_score -
            (scoreTokens lex (ts ++ [t])).negative_score) /
            (((ts ++ [t]).length : ℕ) : ℚ)
        else 0) = _
      rw [if_pos hlpos, hstep, hlen]
    rw [hns, htotdef]
    rw [div_lt_div_iff_of_pos_right hd]
    linarith
  · intro hlkp hlkn hs
    have hstep : scoreTokens lex (ts ++ [t]) =
        ⟨(scoreTokens lex ts).positive_score,
         (scoreTokens lex ts).negative_score + |s|,
         (scoreTokens lex ts).positive_count,
         (scoreTokens lex ts).negative_count + 1⟩ := by
      rw [scoreTokens_append]
      unfold scoreStep
      rw [hlkp, hlkn]
    have hns : (extract_features lex (ts ++ [t])).normalized_score =
        ((scoreTokens lex ts).positive_score -
          ((scoreTokens lex ts).negative_score + |s|)) / ((ts.length : ℚ) + 1) := by
      show (if 0 < (ts ++ [t]).length then
          ((scoreTokens lex (ts ++ [t])).positive_score -
            (scoreTokens lex (ts ++ [t])).negative_score) /
            (((ts ++ [t]).length : ℕ) : ℚ)
        else 0) = _
      rw [if_pos hlpos, hstep, hlen]
    rw [hns, htotdef]
    rw [div_lt_div_iff_of_pos_right hd]
    have habs : 0 < |s| := abs_pos.mpr (ne_of_lt hs)
    linarith

unseal Rat.add Rat.sub Rat.mul Rat.inv in
/-- Witness for C9 at a concrete lexicon and token sequence. -/
theorem c9_monotone_amended_witness :
    (⟨[("good".toList, 2)], [("bad".toList, -3)]⟩ : Lexicon).positive_words.lookup
        "good".toList = some 2 ∧
    (extract_features ⟨[("good".toList, 2)], [("bad".toList, -3)]⟩
        ["x".toList]).total_score /
        (((["x".toList] : List (List Char)).length : ℚ) + 1) <
      (extract_features ⟨[("good".toList, 2)], [("bad".toList, -3)]⟩
        (["x".toList] ++ ["good".toList])).normalized_score :=
  ⟨by decide,
   (c9_monotone_amended ⟨[("good".toList, 2)], [("bad".toList, -3)]⟩
      ["x".toList] "good".toList 2).1 (by decide) (by decide)⟩

/-- The scoring fold keeps `positive_score` non-negative whenever every
value stored in the positive map is strictly positive (as is the case for
every loaded lexicon). -/
theorem scoreFold_ps_nonneg (lex : Lexicon)
    (hval : ∀ p ∈ lex.positive_words, 0 < p.2) (ts : List (List Char))
    (acc : ScoreAcc) (h : 0 ≤ acc.positive_score) :
    0 ≤ (ts.foldl (scoreStep lex) acc).positive_score := by
  induction ts generalizing acc with
  | nil => exact h
  | cons t rest ih =>
    rw [List.foldl_cons]
    apply ih
    unfold scoreStep
    split
    · rename_i s hs
      have hpos := hval _ (lookup_some_mem _ _ _ hs)
      show 0 ≤ acc.positive_score + s
      exact add_nonneg h (le_of_lt hpos)
    · split
      · exact h
      · exact h

/-- Every value in the positive map of a loaded lexicon is strictly
positive. -/
theorem load_lexicon_pos_valid (o : Option (List (List Char))) :
    ∀ p ∈ (load_lexicon o).positive_words, 0 < p.2 := by
  intro p hp
  cases o with
  | none => simp [load_lexicon] at hp
  | some lines =>
    obtain ⟨w, s⟩ := p
    rcases loadLines_pos_mem lines ⟨[], []⟩ w s hp with hin | ⟨hpos, _⟩
    · simp at hin
    · exact hpos

/-- A Positive classification forces at least one positively matched token
and a rounded confidence of at least 25. -/
theorem classify_pos_implications (lex : Lexicon) (toks : List (List Char))
    (hlab : (classifyRaw (extract_features lex toks)).1 = "Positive") :
    1 ≤ (scoreTokens lex toks).positive_count ∧
    25 ≤ pyRound (boostConfidence (extract_features lex toks)
      (classifyRaw (extract_features lex toks)).2) 2 := by
  have hpos := (classifyRaw_pos_iff _).mp hlab
  have hlen : 0 < toks.length := by
    by_contra hx
    have h0 : (extract_features lex toks).normalized_score = 0 := by
      show (if 0 < toks.length then
          ((scoreTokens lex toks).positive_score -
            (scoreTokens lex toks).negative_score) / (toks.length : ℚ)
        else 0) = 0
      rw [if_neg hx]
    rw [h0] at hpos
    norm_num [positive_threshold] at hpos
  have hns_eq : (extract_features lex toks).normalized_score =
      ((scoreTokens lex toks).positive_score -
        (scoreTokens lex toks).negative_score) / (toks.length : ℚ) := by
    show (if 0 < toks.length then
        ((scoreTokens lex toks).positive_score -
          (scoreTokens lex toks).negative_score) / (toks.length : ℚ)
      else 0) = _
    rw [if_pos hlen]
  have hdpos : (0 : ℚ) < (toks.length : ℚ) := by exact_mod_cast hlen
  have hnspos : (0 : ℚ) < (extract_features lex toks).normalized_score := by
    refine lt_trans ?_ hpos
    norm_num [positive_threshold]
  have htot : (0 : ℚ) < (scoreTokens lex toks).positive_score -
      (scoreTokens lex toks).negative_score := by
    rw [hns_eq] at hnspos
    rcases div_pos_iff.mp hnspos with ⟨hT, _⟩ | ⟨_, hneg⟩
    · exact hT
    · exact absurd hneg (not_lt.mpr (le_of_lt hdpos))
  have hppos : 0 < (scoreTokens lex toks).positive_score := by
    have := scoreTokens_neg_nonneg lex toks
    linarith
  have hpc : 1 ≤ (scoreTokens lex toks).positive_count := by
    by_contra hx
    push_neg at hx
    have h0 : (scoreTokens lex toks).positive_count = 0 := by omega
    have hz := scoreTokens_pos_zero lex toks h0
    rw [hz] at hppos
    exact lt_irrefl _ hppos
  refine ⟨hpc, ?_⟩
  have hraw : (classifyRaw (extract_features lex toks)).2 =
      min ((extract_features lex toks).normalized_score * 100) 100 := by
    unfold classifyRaw
    rw [if_pos hpos]
  have hraw5 : (5 : ℚ) < (classifyRaw (extract_features lex toks)).2 := by
    rw [hraw, lt_min_iff]
    constructor
    · have h1 : (1 : ℚ) / 20 < (extract_features lex toks).normalized_score := by
        have h2 := hpos
        norm_num [positive_threshold] at h2
        exact h2
      nlinarith
    · norm_num
  have hboost : (25 : ℚ) ≤ boostConfidence (extract_features lex toks)
      (classifyRaw (extract_features lex toks)).2 := by
    unfold boostConfidence
    rw [if_pos]
    · exact le_min (by linarith) (by norm_num)
    · simp only [Bool.or_eq_true, decide_eq_true_eq]
      left
      show 0 < (scoreTokens lex toks).positive_count
      omega
  have hfin := pyRound_ge_int (boostConfidence (extract_features lex toks)
    (classifyRaw (extract_features lex toks)).2) 2 25 (by exact_mod_cast hboost)
  exact_mod_cast hfin

/-- A Negative classification forces at least one negatively matched token
and a rounded confidence of at least 25, for lexicons with a valid positive
map. -/
theorem classify_neg_implications (lex : Lexicon)
    (hval : ∀ p ∈ lex.positive_words, 0 < p.2) (toks : List (List Char))
    (hlab : (classifyRaw (extract_features lex toks)).1 = "Negative") :
    1 ≤ (scoreTokens lex toks).negative_count ∧
    25 ≤ pyRound (boostConfidence (extract_features lex toks)
      (classifyRaw (extract_features lex toks)).2) 2 := by
  have hneg := (classifyRaw_neg_iff _).mp hlab
  have hlen : 0 < toks.length := by
    by_contra hx
    have h0 : (extract_features lex toks).normalized_score = 0 := by
      show (if 0 < toks.length then
          ((scoreTokens lex toks).positive_score -
            (scoreTokens lex toks).negative_score) / (toks.length : ℚ)
        else 0) = 0
      rw [if_neg hx]
    rw [h0] at hneg
    norm_num [negative_threshold] at hneg
  have hns_eq : (extract_features lex toks).normalized_score =
      ((scoreTokens lex toks).positive_score -
        (scoreTokens lex toks).negative_score) / (toks.length : ℚ) := by
    show (if 0 < toks.length then
        ((scoreTokens lex toks).positive_score -
          (scoreTokens lex toks).negative_score) / (toks.length : ℚ)
      else 0) = _
    rw [if_pos hlen]
  have hdpos : (0 : ℚ) < (toks.length : ℚ) := by exact_mod_cast hlen
  have hnsneg : (extract_features lex toks).normalized_score < 0 := by
    refine lt_trans hneg ?_
    norm_num [negative_threshold]
  have htot : (scoreTokens lex toks).positive_score -
      (scoreTokens lex toks).negative_score < 0 := by
    rw [hns_eq] at hnsneg
    rcases div_neg_iff.mp hnsneg with ⟨_, hneg2⟩ | ⟨hT, _⟩
    · exact absurd hneg2 (not_lt.mpr (le_of_lt hdpos))
    · exact hT
  have hpsnn : 0 ≤ (scoreTokens lex toks).positive_score :=
    scoreFold_ps_nonneg lex hval toks ⟨0, 0, 0, 0⟩ (le_refl 0)
  have hnegpos : 0 < (scoreTokens lex toks).negative_score := by linarith
  have hnc : 1 ≤ (scoreTokens lex toks).negative_count := by
    by_contra hx
    push_neg at hx
    have h0 : (scoreTokens lex toks).negative_count = 0 := by omega
    have hz := scoreTokens_negsc_zero lex toks h0
    rw [hz] at hnegpos
    exact lt_irrefl _ hnegpos
  refine ⟨hnc, ?_⟩
  have hnotpos : ¬ positive_threshold < (extract_features lex toks).normalized_score := by
    intro hx
    have ho : negative_threshold < positive_threshold := by
      norm_num [positive_threshold, negative_threshold]
    have : (0:ℚ) < positive_threshold := by norm_num [positive_threshold]
    linarith
  have hraw : (classifyRaw (extract_features lex toks)).2 =
      min (|(extract_features lex toks).normalized_score| * 100) 100 := by
    unfold classifyRaw
    rw [if_neg hnotpos, if_pos hneg]
  have hraw5 : (5 : ℚ) < (classifyRaw (extract_features lex toks)).2 := by
    rw [hraw, lt_min_iff]
    constructor
    · have habs : (1 : ℚ) / 20 < |(extract_features lex toks).normalized_score| := by
        rw [abs_of_neg hnsneg]
        have h2 := hneg
        norm_num [negative_threshold] at h2
        linarith
      nlinarith
    · norm_num
  have hboost : (25 : ℚ) ≤ boostConfidence (extract_features lex toks)
      (classifyRaw (extract_features lex toks)).2 := by
    unfold boostConfidence
    rw [if_pos]
    · exact le_min (by linarith) (by norm_num)
    · simp only [Bool.or_eq_true, decide_eq_true_eq]
      right
      show 0 < (scoreTokens lex toks).negative_count
      omega
  have hfin := pyRound_ge_int (boostConfidence (extract_features lex toks)
    (classifyRaw (extract_features lex toks)).2) 2 25 (by exact_mod_cast hboost)
  exact_mod_cast hfin

unseal Rat.add Rat.sub Rat.mul Rat.inv in
/-- C10 fails on the code as stated: with lexicon entry `a,0.05004` the
single-token input `a` classifies Positive (0.05004 > 0.05), the
pre-rounding confidence is 5.004 + 20 = 25.004, and the final two-decimal
rounding returns exactly 25 -- not strictly greater than 25. -/
theorem c10_counterexample :
    (analyze_sentiment ⟨[("a".toList, 1251 / 25000)], []⟩ [] id ['a']).sentiment =
      "Positive" ∧
    ¬ (25 < (analyze_sentiment ⟨[("a".toList, 1251 / 25000)], []⟩ [] id
      ['a']).confidence) := by
  decide

/-- C10 amended: for every lexicon whose positive map stores strictly
positive scores (true of every loaded lexicon, see
`load_lexicon_pos_valid`), a Positive result of the pipeline has
positive_words at least 1 and a Negative result has negative_words at least
1; the +20 boost therefore fires on every non-Neutral result and the
returned confidence is at least 25 (the pre-rounding confidence is strictly
above 25, but the final two-decimal rounding can land exactly on 25). -/
theorem c10_label_count_conf (lex : Lexicon)
    (hval : ∀ p ∈ lex.positive_words, 0 < p.2) (stop : List (List Char))
    (red : List Char → List Char) (text : List Char) :
    ((analyze_sentiment lex stop red text).sentiment = "Positive" →
      1 ≤ (analyze_sentiment lex stop red text).positive_words ∧
      25 ≤ (analyze_sentiment lex stop red text).confidence) ∧
    ((analyze_sentiment lex stop red text).sentiment = "Negative" →
      1 ≤ (analyze_sentiment lex stop red text).negative_words ∧
      25 ≤ (analyze_sentiment lex stop red text).confidence) := by
  constructor
  · intro hlab
    have h := classify_pos_implications lex
      ((remove_stopwords stop (tokenize (clean_text text))).map red) hlab
    exact ⟨h.1, h.2⟩
  · intro hlab
    have h := classify_neg_implications lex hval
      ((remove_stopwords stop (tokenize (clean_text text))).map red) hlab
    exact ⟨h.1, h.2⟩

unseal Rat.add Rat.sub Rat.mul Rat.inv in
/-- Witness for C10 at a concrete lexicon and input. -/
theorem c10_label_count_conf_witness :
    (analyze_sentiment ⟨[("good".toList, 5)], []⟩ [] id "good".toList).sentiment =
      "Positive" ∧
    1 ≤ (analyze_sentiment ⟨[("good".toList, 5)], []⟩ [] id
      "good".toList).positive_words ∧
    25 ≤ (analyze_sentiment ⟨[("good".toList, 5)], []⟩ [] id
      "good".toList).confidence :=
  ⟨by decide,
   (c10_label_count_conf ⟨[("good".toList, 5)], []⟩ (by decide) [] id
      "good".toList).1 (by decide)⟩

end SentimentModel
